import Mathlib

/-!
# phono: wav sample conversion, single-use stages and the asset sink

A shallow embedding of `wav/wav.go` and `asset/asset.go`, together with the
parts of the `phono` and `pipe` packages and of the go-audio library that those
files call.

Conventions of the embedding

* A Go `float64` is a `Float64`: a finite value given by its exact rational
  value, an infinity or NaN.  Every operation computes the exact result and
  rounds it to the nearest `float64`, ties to even, as IEEE 754 does.
* A Go `int` is an `Int`, of which the program holds the values of 64 bits;
  the integer arithmetic of the embedded code (indices, lengths) does not
  overflow on them.
* A Go function returning `(T, error)` returns `Except Error T`; a runtime
  panic (index out of range, slice bounds, negative `make`) is a `Fault`, and
  functions that may panic return `Except Fault _`.
* A pointer receiver mutated in place becomes explicit state passing: the
  function returns the new value of the receiver next to its result.
* A slice or interface value that the source compares with `nil` is an
  `Option`; elsewhere a slice is a `List` and the nil slice is `[]`.
-/

set_option linter.dupNamespace false

namespace Phono

/-! ## Errors and faults -/

/-- Go `error` values that the embedded code creates or passes on. -/
inductive Error where
  /-- `pipe.ErrSingleUseReused` / the single-use violation -/
  | ErrSingleUseReused
  /-- `pipe.ErrEOP`, the end-of-stream sentinel -/
  | ErrEOP
  /-- `errors.New("Source is not defined")` -/
  | SourceNotDefined
  /-- `errors.New("Format for Buffer is not defined")` -/
  | FormatNotDefined
  /-- `errors.New("Wav is not valid")` -/
  | WavNotValid
  /-- `fmt.Errorf("Conversion to [][]float64 from %T is not defined", b)` -/
  | ConversionToSamplesNotDefined
  /-- `fmt.Errorf("Conversion to %T from [][]float64 is not defined", b)` -/
  | ConversionFromSamplesNotDefined
  /-- an error value produced outside the repository (os, go-audio) -/
  | External (code : Nat)
  deriving DecidableEq, Repr

/-- Run-time panics of the Go code, and exhaustion of the loop budget of the
embedding. -/
inductive Fault where
  | IndexOutOfRange
  | SliceBoundsOutOfRange
  | MakeLenOutOfRange
  | NilDereference
  | ChannelCountMismatch
  | OutOfFuel
  deriving DecidableEq, Repr

/-! ## float64 -/

/-- Conversion `int(x)` of a real number to an integer: truncation toward zero. -/
def truncToInt (x : ℚ) : Int := if 0 ≤ x then ⌊x⌋ else ⌈x⌉

/-- Rounding of a real number to the nearest integer, a tie going to the even
one. -/
def roundHalfEven (x : ℚ) : Int :=
  if x - ⌊x⌋ < 1 / 2 then ⌊x⌋
  else if 1 / 2 < x - ⌊x⌋ then ⌊x⌋ + 1
  else if ⌊x⌋ % 2 = 0 then ⌊x⌋ else ⌊x⌋ + 1

/-- A `float64` value: a finite number, given by its exact value, an infinity
or NaN.  The finite values of the program are the numbers `m * 2^e` with
`|m| < 2^53` and `-1074 ≤ e ≤ 971`.  Negative zero is not told apart from
zero; no operation of the embedded code distinguishes them. -/
inductive Float64 where
  | finite (q : ℚ)
  | inf (negative : Bool)
  | nan
  deriving DecidableEq, Repr

/-- The exponent of the last binary place that `float64` keeps of the real
number `q`: 52 places below the leading one, and never below `-1074` (the
subnormal numbers). -/
def Float64.ulpExp (q : ℚ) : Int := max (Int.log 2 |q| - 52) (-1074)

/-- Rounding of the exact result `q` of an operation to `float64` (IEEE 754,
round to nearest, ties to even): the mantissa is rounded at the last place, a
result of magnitude `2^1024` or more is an infinity. -/
def Float64.round (q : ℚ) : Float64 :=
  if (2 : ℚ) ^ 1024 ≤ |(roundHalfEven (q / 2 ^ Float64.ulpExp q) : ℚ) * 2 ^ Float64.ulpExp q|
  then .inf (decide (q < 0))
  else .finite ((roundHalfEven (q / 2 ^ Float64.ulpExp q) : ℚ) * 2 ^ Float64.ulpExp q)

/-- Conversion `float64(v)` of an integer. -/
def Float64.ofInt (v : Int) : Float64 := Float64.round (v : ℚ)

/-- Quotient `x / c` of a `float64` by a constant `c` that is a positive
`float64` value, as in `x / 0x8000`. -/
def Float64.div (x : Float64) (c : ℚ) : Float64 :=
  match x with
  | .finite q => Float64.round (q / c)
  | .inf n => .inf n
  | .nan => .nan

/-- Product `x * c` of a `float64` and a constant `c` that is a positive
`float64` value, as in `x * 0x7fff`. -/
def Float64.mul (x : Float64) (c : ℚ) : Float64 :=
  match x with
  | .finite q => Float64.round (q * c)
  | .inf n => .inf n
  | .nan => .nan

/-- Conversion `int(x)` of a `float64` to the 64-bit `int`: truncation toward
zero.  When the truncated value is not an `int`, or `x` is an infinity or NaN,
Go leaves the result to the implementation; it is the one of amd64, the least
`int`. -/
def Float64.toInt : Float64 → Int
  | .finite q =>
    if -(2 ^ 63 : Int) ≤ truncToInt q ∧ truncToInt q < (2 ^ 63 : Int) then truncToInt q
    else -(2 ^ 63 : Int)
  | _ => -(2 ^ 63 : Int)

/-! ## Buffers -/

/-- Type `phono.Buffer`, that is `[][]float64`: one list of samples per channel. -/
abbrev Buffer := List (List Float64)

/-- Type `audio.Format` of go-audio. -/
structure Format where
  NumChannels : Int
  SampleRate : Int
  deriving DecidableEq, Repr

/-- Type `audio.IntBuffer` of go-audio; `Format` is a pointer and may be nil. -/
structure IntBuffer where
  Format : Option Format
  Data : List Int
  SourceBitDepth : Int
  deriving DecidableEq, Repr

/-- Values of the interface `audio.Buffer`: an `*audio.IntBuffer`, or a buffer
of another dynamic type (go-audio has float buffers), of which only the
format and the frame count are observed. -/
inductive AudioBuffer where
  | IntBuf (ib : IntBuffer)
  | OtherBuf (format : Option Format) (numFrames : Int)
  deriving DecidableEq, Repr

/-- Method `(*audio.IntBuffer).NumFrames` of go-audio: zero without a format,
otherwise `len(buf.Data) / numChannels`, where a channel count of zero is
taken as one; the division is Go's, truncating toward zero. -/
def IntBuffer.NumFrames (buf : IntBuffer) : Int :=
  match buf.Format with
  | none => 0
  | some f =>
    let numChannels := if f.NumChannels = 0 then 1 else f.NumChannels
    Int.tdiv (buf.Data.length : Int) numChannels

/-- Method `PCMFormat` of `audio.Buffer`. -/
def AudioBuffer.PCMFormat : AudioBuffer → Option Format
  | .IntBuf ib => ib.Format
  | .OtherBuf f _ => f

/-- Method `NumFrames` of `audio.Buffer`. -/
def AudioBuffer.NumFrames : AudioBuffer → Int
  | .IntBuf ib => ib.NumFrames
  | .OtherBuf _ n => n

/-! ## wav.AsSamples -/

/-- The inner loop of `AsSamples`,
`for j := i; j < bufferLen; j = j + numChannels { s[i] = append(s[i], float64(ib.Data[j])/0x8000) }`,
with `acc` the current `s[i]`.  Each iteration uses one unit of `fuel`. -/
def AsSamples.channel (data : List Int) (numChannels bufferLen : Int) :
    Nat → Int → List Float64 → Except Fault (List Float64)
  | 0, j, acc => if j < bufferLen then .error .OutOfFuel else .ok acc
  | fuel + 1, j, acc =>
    if j < bufferLen then
      if j < 0 then .error .IndexOutOfRange
      else
        match data[j.toNat]? with
        | none => .error .IndexOutOfRange
        | some v => AsSamples.channel data numChannels bufferLen fuel (j + numChannels)
            (acc ++ [Float64.div (Float64.ofInt v) 0x8000])
    else .ok acc

/-- The outer loop of `AsSamples`, `for i := range s { s[i] = ... }`, over the
remaining channel indices. -/
def AsSamples.channels (data : List Int) (numChannels bufferLen : Int) (fuel : Nat) :
    List Nat → Except Fault Buffer
  | [] => .ok []
  | i :: rest =>
    match AsSamples.channel data numChannels bufferLen fuel (i : Int) [] with
    | .error f => .error f
    | .ok c =>
      match AsSamples.channels data numChannels bufferLen fuel rest with
      | .error f => .error f
      | .ok cs => .ok (c :: cs)

/-- Function `AsSamples` of `wav/wav.go`.  `none` as argument is the nil
interface, `none` as result the nil buffer.  The loop budget is the length of
the data plus one, which the inner loop never exceeds. -/
def AsSamples (b : Option AudioBuffer) : Except Fault (Except Error (Option Buffer)) :=
  match b with
  | none => .ok (.ok none)
  | some b =>
    match b.PCMFormat with
    | none => .ok (.error .FormatNotDefined)
    | some format =>
      let numChannels := format.NumChannels
      -- s := phono.Buffer(make([][]float64, numChannels))
      if numChannels < 0 then .error .MakeLenOutOfRange
      else
        let bufferLen := numChannels * b.NumFrames
        match b with
        | .IntBuf ib =>
          match AsSamples.channels ib.Data numChannels bufferLen (ib.Data.length + 1)
              (List.range numChannels.toNat) with
          | .error f => .error f
          | .ok s => .ok (.ok (some s))
        | .OtherBuf _ _ => .ok (.error .ConversionToSamplesNotDefined)

/-! ## wav.AsBuffer -/

/-- The inner loop of `AsBuffer`,
`for j := range s { ib.Data[i*numChannels+j] = int(s[j][i] * 0x7fff) }`,
over the remaining channel indices `js`, for frame `i`. -/
def AsBuffer.frame (s : Buffer) (numChannels i : Nat) :
    List Nat → List Int → Except Fault (List Int)
  | [], data => .ok data
  | j :: js, data =>
    match s[j]? with
    | none => .error .IndexOutOfRange
    | some ch =>
      match ch[i]? with
      | none => .error .IndexOutOfRange
      | some x =>
        if i * numChannels + j < data.length then
          AsBuffer.frame s numChannels i js
            (data.set (i * numChannels + j) (Float64.toInt (Float64.mul x 0x7fff)))
        else .error .IndexOutOfRange

/-- The outer loop of `AsBuffer`, `for i := range s[0] { ... }`, over the
remaining frame indices. -/
def AsBuffer.frames (s : Buffer) (numChannels : Nat) :
    List Nat → List Int → Except Fault (List Int)
  | [], data => .ok data
  | i :: is, data =>
    match AsBuffer.frame s numChannels i (List.range s.length) data with
    | .error f => .error f
    | .ok data1 => AsBuffer.frames s numChannels is data1

/-- Function `AsBuffer` of `wav/wav.go`.  The target `b` is mutated in place in
the source; here its new value is returned next to the error result. -/
def AsBuffer (b : Option AudioBuffer) (s : Option Buffer) :
    Except Fault (Option AudioBuffer × Option Error) :=
  match b, s with
  | none, _ => .ok (none, none)
  | some b, none => .ok (some b, none)
  | some b, some s =>
    let numChannels := s.length
    -- len(s[0])
    match s[0]? with
    | none => .error .IndexOutOfRange
    | some s0 =>
      let bufferLen := numChannels * s0.length
      match b with
      | .IntBuf ib =>
        match AsBuffer.frames s numChannels (List.range s0.length)
            (List.replicate bufferLen 0) with
        | .error f => .error f
        | .ok data => .ok (some (.IntBuf { ib with Data := data }), none)
      | .OtherBuf f n => .ok (some (.OtherBuf f n), some .ConversionFromSamplesNotDefined)

/-! ## Single-use guard -/

/-- Type `sync.Once`: `done` records that `Do` has already run its function. -/
structure Once where
  done : Bool
  deriving DecidableEq, Repr

/-- Modelled from the spec: function `SingleUse` of the `phono` and `pipe`
packages, which `Asset.Sink` and `Pump.Pump` call and whose body is not among
the sources.  "`single_use(guard)` returns `SingleUseViolation` on second call
before the guard is reset": the first call on a guard marks it used and returns
no error, every later call returns the violation. -/
def SingleUse (once : Once) : Once × Option Error :=
  if once.done then (once, some .ErrSingleUseReused) else ({ done := true }, none)

/-! ## phono.Buffer operations -/

/-- Modelled from the spec: method `NumChannels` of `phono.Buffer`, which is not
among the sources: "`num_channels()→C`", the number of per-channel vectors. -/
def Buffer.NumChannels (b : Buffer) : Nat := b.length

/-- Modelled from the spec: method `Size` of `phono.Buffer`, which is not among
the sources: "`size()` is the shared per-channel length"; a buffer without
channels has size zero. -/
def Buffer.Size (b : Buffer) : Nat :=
  match b with
  | [] => 0
  | ch :: _ => ch.length

/-- Modelled from the spec: method `Append` of `phono.Buffer`, which is not
among the sources.  "`append` performs channel-wise concatenation and fails
when channel counts mismatch.  Appending an empty buffer is a no-op."  The
empty buffer is the one without channels, the zero value that a fresh `Asset`
holds; appending to it creates the buffer with the channels of the argument
("a buffer's channel count is fixed at creation").  The method returns a single
value at its call site in `Asset.Sink`, so its failure is a fault. -/
def Buffer.Append (b source : Buffer) : Except Fault Buffer :=
  if Buffer.NumChannels source = 0 then .ok b
  else if Buffer.NumChannels b = 0 then .ok source
  else if Buffer.NumChannels b ≠ Buffer.NumChannels source then .error .ChannelCountMismatch
  else .ok (List.zipWith (fun x y => x ++ y) b source)

/-! ## asset.Asset -/

/-- Type `phono.UID`; the value is supplied by the caller in place of
`phono.NewUID()`. -/
abbrev UID := Nat

/-- Type `asset.Asset`: the embedded `phono.UID` and `phono.Buffer`, and the
guard `once`. -/
structure Asset where
  UID : UID
  Buffer : Buffer
  once : Once
  deriving DecidableEq, Repr

/-- Function `asset.New`: only the UID is set, the buffer and the guard have
their zero values. -/
def Asset.New (uid : Phono.UID) : Asset := { UID := uid, Buffer := [], once := { done := false } }

/-- The sink function that `Asset.Sink` returns,
`func(b phono.Buffer) error { a.Buffer = a.Buffer.Append(b); return nil }`,
applied to the current value of the asset. -/
def Asset.sinkFunc (a : Asset) (b : Phono.Buffer) : Except Fault (Asset × Option Error) :=
  match Buffer.Append a.Buffer b with
  | .error f => .error f
  | .ok buf => .ok ({ a with Buffer := buf }, none)

/-- Method `Asset.Sink` of `asset/asset.go`: the new value of the asset, and
either the sink function or the error of the guard. -/
def Asset.Sink (a : Asset) (_ : String) :
    Asset × Except Error (Asset → Phono.Buffer → Except Fault (Asset × Option Error)) :=
  match SingleUse a.once with
  | (once, some err) => ({ a with once := once }, .error err)
  | (once, none) => ({ a with once := once }, .ok Asset.sinkFunc)

/-! ## wav.Pump -/

/-- Type `*os.File` as far as the pump uses it: open or closed. -/
structure File where
  closed : Bool
  deriving DecidableEq, Repr

/-- Outcome of one call of `(*wav.Decoder).PCMBuffer` of go-audio: the contents
of `buf.Data` after the call, the number of samples read and the error, if
any, as the code of an error value of go-audio or the os package. -/
structure PCMRead where
  data : List Int
  n : Int
  err : Option Nat
  deriving DecidableEq, Repr

/-- Type `*wav.Decoder` of go-audio: the header fields that `NewPump` reads, the
validity of the file, and the outcomes of the calls of `PCMBuffer` still to
come, in order.  Any behaviour of a decoder over a run is such a list. -/
structure Decoder where
  NumChans : Nat
  SampleRate : Nat
  BitDepth : Nat
  WavAudioFormat : Nat
  valid : Bool
  reads : List PCMRead
  deriving DecidableEq, Repr

/-- Method `(*wav.Decoder).Format` of go-audio. -/
def Decoder.Format (d : Decoder) : Phono.Format :=
  { NumChannels := (d.NumChans : Int), SampleRate := (d.SampleRate : Int) }

/-- Method `(*wav.Decoder).IsValidFile` of go-audio. -/
def Decoder.IsValidFile (d : Decoder) : Bool := d.valid

/-- Method `(*wav.Decoder).PCMBuffer` of go-audio: a nil buffer reads nothing;
otherwise the next outcome is taken, and past the last one the decoder is at
the end of the data and reads zero samples. -/
def Decoder.PCMBuffer (d : Decoder) (buf : Option IntBuffer) :
    Decoder × Option IntBuffer × Int × Option Error :=
  match buf with
  | none => (d, none, 0, none)
  | some ib =>
    match d.reads with
    | [] => (d, some ib, 0, none)
    | r :: rest =>
      ({ d with reads := rest }, some { ib with Data := r.data }, r.n, r.err.map Error.External)

/-- Type `wav.Pump`. -/
structure Pump where
  UID : UID
  bufferSize : Int
  wavNumChannels : Int
  wavSampleRate : Int
  wavBitDepth : Int
  wavAudioFormat : Int
  wavFormat : Option Format
  file : Option File
  decoder : Option Decoder
  ib : Option IntBuffer
  once : Once
  deriving DecidableEq, Repr

/-- Function `NewPump` of `wav/wav.go`.  `opened` is the result of `os.Open`
followed by `wav.NewDecoder`: the error of `os.Open`, or the decoder over the
opened file. -/
def NewPump (opened : Except Error Decoder) (bufferSize : Int) :
    Except Fault (Except Error Pump) :=
  match opened with
  | .error err => .ok (.error err)
  | .ok decoder =>
    if !decoder.IsValidFile then .ok (.error .WavNotValid)
    else
      -- make([]int, int(bufferSize)*decoder.Format().NumChannels)
      if bufferSize * decoder.Format.NumChannels < 0 then .error .MakeLenOutOfRange
      else .ok (.ok {
        UID := 0
        file := some { closed := false }
        decoder := some decoder
        bufferSize := bufferSize
        wavNumChannels := decoder.Format.NumChannels
        wavSampleRate := (decoder.SampleRate : Int)
        wavBitDepth := (decoder.BitDepth : Int)
        wavAudioFormat := (decoder.WavAudioFormat : Int)
        wavFormat := some decoder.Format
        ib := some {
          Format := some decoder.Format
          Data := List.replicate (bufferSize * decoder.Format.NumChannels).toNat 0
          SourceBitDepth := (decoder.BitDepth : Int) }
        once := { done := false } })

/-- Method `Pump.Flush` of `wav/wav.go`, `return p.file.Close()`: closing a nil
or an already closed file is an error of the os package. -/
def Pump.Flush (p : Pump) (_ : String) : Pump × Option Error :=
  match p.file with
  | none => (p, some (.External 0))
  | some f =>
    if f.closed then (p, some (.External 1))
    else ({ p with file := some { closed := true } }, none)

/-- The pump function that `Pump.Pump` returns, applied to the current value of
the pump.  The slice expression `p.ib.Data[:readSamples]` faults when
`readSamples` is negative or exceeds the buffer, whose capacity is its
length. -/
def Pump.pumpFunc (p : Pump) : Except Fault (Pump × Except Error (Option Buffer)) :=
  match p.decoder with
  | none => .ok (p, .error .SourceNotDefined)
  | some decoder =>
    match decoder.PCMBuffer p.ib with
    | (decoder1, ib1, readSamples, err) =>
      let p1 := { p with decoder := some decoder1, ib := ib1 }
      match err with
      | some e => .ok (p1, .error e)
      | none =>
        if readSamples = 0 then .ok (p1, .error .ErrEOP)
        else
          match ib1 with
          | none => .error .NilDereference
          | some ib =>
            if readSamples < 0 ∨ (ib.Data.length : Int) < readSamples then
              .error .SliceBoundsOutOfRange
            else
              let ib2 := { ib with Data := ib.Data.take readSamples.toNat }
              let p2 := { p1 with ib := some ib2 }
              match AsSamples (some (.IntBuf ib2)) with
              | .error f => .error f
              | .ok (.error e) => .ok (p2, .error e)
              | .ok (.ok b) => .ok (p2, .ok b)

/-- Method `Pump.Pump` of `wav/wav.go`: the new value of the pump, and either
the pump function or the error of the guard. -/
def Pump.Pump (p : Phono.Pump) (_ : String) :
    Phono.Pump × Except Error (Phono.Pump → Except Fault (Phono.Pump × Except Error (Option Buffer))) :=
  match SingleUse p.once with
  | (once, some err) => ({ p with once := once }, .error err)
  | (once, none) => ({ p with once := once }, .ok Pump.pumpFunc)

/-! ## Calls made on a stage instance -/

/-- A call made on an `Asset`: the setup call `Sink`, or a call of the sink
function it returned. -/
inductive AssetCall where
  | setup (name : String)
  | consume (b : Buffer)

/-- The asset after one call; a fault of the call ends the execution. -/
def Asset.call (a : Asset) : AssetCall → Except Fault Asset
  | .setup name => .ok (a.Sink name).1
  | .consume b =>
    match a.sinkFunc b with
    | .error f => .error f
    | .ok (a1, _) => .ok a1

/-- The asset after a sequence of calls. -/
def Asset.calls (a : Asset) : List AssetCall → Except Fault Asset
  | [] => .ok a
  | c :: cs =>
    match a.call c with
    | .error f => .error f
    | .ok a1 => Asset.calls a1 cs

/-- A call made on a wav `Pump`: the setup call `Pump`, a call of the pump
function it returned, or `Flush`. -/
inductive PumpCall where
  | setup (name : String)
  | produce
  | flush (name : String)

/-- The pump after one call; a fault of the call ends the execution. -/
def Pump.call (p : Phono.Pump) : PumpCall → Except Fault Phono.Pump
  | .setup name => .ok (p.Pump name).1
  | .produce =>
    match p.pumpFunc with
    | .error f => .error f
    | .ok (p1, _) => .ok p1
  | .flush name => .ok (p.Flush name).1

/-- The pump after a sequence of calls. -/
def Pump.calls (p : Phono.Pump) : List PumpCall → Except Fault Phono.Pump
  | [] => .ok p
  | c :: cs =>
    match p.call c with
    | .error f => .error f
    | .ok p1 => Pump.calls p1 cs

/-- The buffers `bs` passed in order to a sink function `f` of an asset: the
final asset and the error result of every call. -/
def Asset.feed (f : Asset → Phono.Buffer → Except Fault (Asset × Option Error)) (a : Asset) :
    List Phono.Buffer → Except Fault (Asset × List (Option Error))
  | [] => .ok (a, [])
  | b :: bs =>
    match f a b with
    | .error fault => .error fault
    | .ok (a1, e) =>
      match Asset.feed f a1 bs with
      | .error fault => .error fault
      | .ok (a2, es) => .ok (a2, e :: es)

/-! ## Specification-side definitions -/

/-- Closed form of samples `k, k+1, ..., k+r-1` of channel `i` of interleaved
data with `C` channels: sample `t` is `float64(data[t*C + i]) / 0x8000`. -/
def channelSamples (data : List Int) (C i k r : Nat) : List Float64 :=
  (List.range' k r).map (fun t => Float64.div (Float64.ofInt (data.getD (t * C + i) 0)) 0x8000)

/-- The value `AsBuffer` is expected to store at position `q` of the
interleaved data for a sample buffer `s` with `C` channels:
`int(s[q % C][q / C] * 0x7fff)`. -/
def interleavedAt (s : Buffer) (C q : Nat) : Int :=
  Float64.toInt (Float64.mul ((s.getD (q % C) []).getD (q / C) (.finite 0)) 0x7fff)

/-- Loop invariant of `AsBuffer`: the data has its final length and the first
`p` positions hold their final values. -/
def AsBuffer.Filled (s : Buffer) (C L : Nat) (data : List Int) (p : Nat) : Prop :=
  data.length = L ∧ ∀ q, q < p → data[q]? = some (interleavedAt s C q)

/-- The data path of a pipe from a wav pump straight to a wav sink: the pump
converts its integer buffer `src` with `AsSamples` (`Pump.Pump`), the sink
converts the samples into its own integer buffer `target` with `AsBuffer`
(`Sink.Sink`).  An error of the first conversion ends the path. -/
def roundTrip (src target : IntBuffer) : Except Fault (Option AudioBuffer × Option Error) :=
  match AsSamples (some (.IntBuf src)) with
  | .error f => .error f
  | .ok (.error e) => .ok (some (.IntBuf target), some e)
  | .ok (.ok s) => AsBuffer (some (.IntBuf target)) s

/-- The signed range of a bit depth: `-2^(bits-1) ≤ v ≤ 2^(bits-1) - 1`. -/
def inSignedRange (bits : Int) (v : Int) : Prop :=
  -(2 ^ (bits.toNat - 1) : Int) ≤ v ∧ v ≤ (2 ^ (bits.toNat - 1) : Int) - 1

instance (bits v : Int) : Decidable (inSignedRange bits v) := by
  unfold inSignedRange; infer_instance

/-- Channel `j` of the buffers `bs` concatenated in order. -/
def channelConcat (bs : List Buffer) (j : Nat) : List Float64 :=
  (bs.map (fun b => b.getD j [])).flatten

/-! ## Rounding to float64 -/

theorem roundHalfEven_near (x : ℚ) (n : Int) (h : |x - n| < 1 / 2) : roundHalfEven x = n := by
  rw [abs_lt] at h
  obtain ⟨h1, h2⟩ := h
  by_cases hx : (n : ℚ) ≤ x
  · have hf : ⌊x⌋ = n := by
      rw [Int.floor_eq_iff]
      constructor <;> linarith
    have hlt : x - (n : ℚ) < 1 / 2 := h2
    simp only [roundHalfEven, hf, if_pos hlt]
  · have hx' : x < n := lt_of_not_le hx
    have hf : ⌊x⌋ = n - 1 := by
      rw [Int.floor_eq_iff]
      push_cast
      constructor <;> linarith
    have h3 : ¬ (x - ((n - 1 : Int) : ℚ) < 1 / 2) := by push_cast; linarith
    have h4 : 1 / 2 < x - ((n - 1 : Int) : ℚ) := by push_cast; linarith
    simp only [roundHalfEven, hf, if_neg h3, if_pos h4]
    omega

theorem roundHalfEven_intCast (n : Int) : roundHalfEven (n : ℚ) = n :=
  roundHalfEven_near _ n (by simp)

theorem roundHalfEven_tie_even (n : Int) (hn : n % 2 = 0) :
    roundHalfEven ((n : ℚ) + 1 / 2) = n := by
  have hf : ⌊(n : ℚ) + 1 / 2⌋ = n := by
    rw [Int.floor_eq_iff]
    constructor <;> linarith
  have h3 : ¬ ((n : ℚ) + 1 / 2 - (n : ℚ) < 1 / 2) := by linarith
  have h4 : ¬ (1 / 2 < (n : ℚ) + 1 / 2 - (n : ℚ)) := by linarith
  simp only [roundHalfEven, hf, if_neg h3, if_neg h4, if_pos hn]

theorem Float64.ulpExp_eq (q : ℚ) (L : Int) (h1 : (2 : ℚ) ^ L ≤ |q|) (h2 : |q| < (2 : ℚ) ^ (L + 1)) :
    Float64.ulpExp q = max (L - 52) (-1074) := by
  have hpos : (0 : ℚ) < |q| := lt_of_lt_of_le (by positivity) h1
  have hlog : Int.log 2 |q| = L := by
    apply le_antisymm
    · have := (Int.lt_zpow_iff_log_lt (R := ℚ) (b := 2) (by norm_num) hpos (x := L + 1)).mp
        (by simpa using h2)
      omega
    · exact (Int.zpow_le_iff_le_log (R := ℚ) (b := 2) (by norm_num) hpos (x := L)).mp
        (by simpa using h1)
  rw [Float64.ulpExp, hlog]

theorem Float64.ulpExp_le (q : ℚ) (E : Int) (hq : q ≠ 0) (hE : -1074 ≤ E)
    (h : |q| < (2 : ℚ) ^ (E + 53)) : Float64.ulpExp q ≤ E := by
  unfold Float64.ulpExp
  apply max_le _ hE
  have hpos : (0 : ℚ) < |q| := abs_pos.mpr hq
  have := (Int.lt_zpow_iff_log_lt (R := ℚ) (b := 2) (by norm_num) hpos (x := E + 53)).mp
    (by simpa using h)
  omega

theorem Float64.round_zero : Float64.round 0 = .finite 0 := by
  have h : ¬ ((2 : ℚ) ^ 1024 ≤ 0) := not_le.mpr (by positivity)
  simp [Float64.round, roundHalfEven, h]

/-- A number `n * 2^e` with `|n| < 2^53` and `-1074 ≤ e ≤ 971` is a `float64`
value: rounding leaves it as it is. -/
theorem Float64.round_repr (n e : Int) (hn : |n| < 2 ^ 53) (he : -1074 ≤ e) (he' : e ≤ 971) :
    Float64.round ((n : ℚ) * 2 ^ e) = .finite ((n : ℚ) * 2 ^ e) := by
  by_cases hn0 : n = 0
  · subst hn0
    simp [Float64.round_zero]
  have hq0 : (n : ℚ) * 2 ^ e ≠ 0 := by
    have : (n : ℚ) ≠ 0 := by exact_mod_cast hn0
    positivity
  have h2e : (0 : ℚ) < 2 ^ e := by positivity
  have hnq : |(n : ℚ)| < 2 ^ (53 : ℕ) := by exact_mod_cast hn
  have habs : |(n : ℚ) * 2 ^ e| < (2 : ℚ) ^ (e + 53) := by
    rw [abs_mul, abs_of_pos h2e, zpow_add₀ (by norm_num), mul_comm]
    have h53 : (2 : ℚ) ^ (53 : ℤ) = 2 ^ (53 : ℕ) := by norm_cast
    rw [h53]
    exact mul_lt_mul_of_pos_left hnq h2e
  have hu := Float64.ulpExp_le _ e hq0 he habs
  obtain ⟨d, hd⟩ : ∃ d : ℕ, e = Float64.ulpExp ((n : ℚ) * 2 ^ e) + d :=
    ⟨(e - Float64.ulpExp ((n : ℚ) * 2 ^ e)).toNat, by omega⟩
  have hquot : (n : ℚ) * 2 ^ e / 2 ^ Float64.ulpExp ((n : ℚ) * 2 ^ e) = ((n * 2 ^ d : Int) : ℚ) := by
    have hu0 : (2 : ℚ) ^ Float64.ulpExp ((n : ℚ) * 2 ^ e) ≠ 0 := by positivity
    rw [div_eq_iff hu0]
    nth_rewrite 1 [hd]
    rw [zpow_add₀ (by norm_num), zpow_natCast]
    push_cast
    ring
  have hback : ((n * 2 ^ d : Int) : ℚ) * 2 ^ Float64.ulpExp ((n : ℚ) * 2 ^ e) = (n : ℚ) * 2 ^ e := by
    rw [← hquot]
    field_simp
  have hfin : ¬ ((2 : ℚ) ^ 1024 ≤ |(n : ℚ) * 2 ^ e|) := by
    have h1 : (2 : ℚ) ^ (e + 53) ≤ 2 ^ ((1024 : ℕ) : ℤ) :=
      zpow_le_zpow_right₀ (by norm_num) (by omega)
    rw [zpow_natCast] at h1
    exact not_le.mpr (lt_of_lt_of_le habs h1)
  rw [Float64.round, hquot, roundHalfEven_intCast, hback, if_neg hfin]

/-- A quotient `m / 2^k` with `|m| ≤ 2^53` and `k ≤ 1074` is a `float64`
value. -/
theorem Float64.round_dyadic (m : Int) (k : ℕ) (hm : |m| ≤ 2 ^ 53) (hk : k ≤ 1074) :
    Float64.round ((m : ℚ) / 2 ^ k) = .finite ((m : ℚ) / 2 ^ k) := by
  have hdiv : ∀ (n : Int) (j : Int), (n : ℚ) * 2 ^ (j - k) = (n : ℚ) * 2 ^ j / 2 ^ k := by
    intro n j
    rw [zpow_sub₀ (by norm_num), zpow_natCast]
    ring
  rcases lt_or_eq_of_le hm with hlt | heq
  · have h := Float64.round_repr m (0 - k) hlt (by omega) (by omega)
    rw [hdiv] at h
    simpa using h
  · have hm' : m = 2 ^ 53 ∨ m = -(2 ^ 53) := by
      rcases abs_choice m with h | h
      · left; rw [← h]; exact heq
      · right; rw [← heq, h, neg_neg]
    rcases hm' with rfl | rfl
    · have h := Float64.round_repr (2 ^ 52) (1 - k) (by norm_num) (by omega) (by omega)
      rw [hdiv] at h
      have e : ((2 ^ 52 : Int) : ℚ) * 2 ^ (1 : ℤ) = ((2 ^ 53 : Int) : ℚ) := by norm_num
      rw [e] at h
      exact h
    · have h := Float64.round_repr (-(2 ^ 52)) (1 - k) (by norm_num) (by omega) (by omega)
      rw [hdiv] at h
      have e : ((-(2 ^ 52) : Int) : ℚ) * 2 ^ (1 : ℤ) = ((-(2 ^ 53) : Int) : ℚ) := by norm_num
      rw [e] at h
      exact h

theorem Float64.ofInt_exact (v : Int) (hv : |v| ≤ 2 ^ 53) : Float64.ofInt v = .finite (v : ℚ) := by
  have h := Float64.round_dyadic v 0 hv (by omega)
  simpa [Float64.ofInt] using h

/-- For an integer of magnitude at most `2^53` the sample `float64(v)/0x8000`
is the exact quotient. -/
theorem sample_exact (v : Int) (hv : |v| ≤ 2 ^ 53) :
    Float64.div (Float64.ofInt v) 0x8000 = .finite ((v : ℚ) / 32768) := by
  have h := Float64.round_dyadic v 15 hv (by omega)
  rw [Float64.ofInt_exact v hv, Float64.div]
  norm_num at h ⊢
  exact h

/-- For a 16-bit value `v` the product of the sample `v / 0x8000` and `0x7fff`
is exact. -/
theorem scaled_exact (v : Int) (hlo : -32768 ≤ v) (hhi : v ≤ 32768) :
    Float64.mul (.finite ((v : ℚ) / 32768)) 0x7fff = .finite ((v : ℚ) / 32768 * 32767) := by
  have hm : |v * 32767| ≤ 2 ^ 53 := by
    rw [abs_le]
    constructor <;> omega
  have h := Float64.round_dyadic (v * 32767) 15 hm (by omega)
  have e : ((v * 32767 : Int) : ℚ) / 2 ^ 15 = (v : ℚ) / 32768 * 32767 := by
    push_cast; ring
  rw [e] at h
  rw [Float64.mul]
  exact h

theorem truncToInt_scaled (v : Int) (hlo : -32768 ≤ v) (hhi : v ≤ 32768) :
    truncToInt ((v : ℚ) / 0x8000 * 0x7fff) = v - Int.sign v := by
  have hloq : (-32768 : ℚ) ≤ (v : ℚ) := by exact_mod_cast hlo
  have hhiq : (v : ℚ) ≤ 32768 := by exact_mod_cast hhi
  rcases lt_trichotomy v 0 with hneg | hzero | hpos
  · have hq : (v : ℚ) < 0 := by exact_mod_cast hneg
    have hx : ¬ (0 ≤ (v : ℚ) / 0x8000 * 0x7fff) := by
      intro h
      have : (v : ℚ) / 0x8000 * 0x7fff < 0 := by
        have : (v : ℚ) / 0x8000 * 0x7fff = (v : ℚ) * (0x7fff / 0x8000) := by ring
        rw [this]
        exact mul_neg_of_neg_of_pos hq (by norm_num)
      linarith
    rw [truncToInt, if_neg hx, Int.sign_eq_neg_one_of_neg hneg, Int.ceil_eq_iff]
    push_cast
    constructor <;> linarith
  · subst hzero
    simp [truncToInt]
  · have hq : (0 : ℚ) < (v : ℚ) := by exact_mod_cast hpos
    have hx : 0 ≤ (v : ℚ) / 0x8000 * 0x7fff := by positivity
    rw [truncToInt, if_pos hx, Int.sign_eq_one_of_pos hpos, Int.floor_eq_iff]
    push_cast
    constructor <;> linarith

/-- A 16-bit value scaled to a sample and back, as `AsSamples` and `AsBuffer`
do it, moves one step toward zero. -/
theorem scaled_back (v : Int) (hlo : -32768 ≤ v) (hhi : v ≤ 32768) :
    Float64.toInt (Float64.mul (Float64.div (Float64.ofInt v) 0x8000) 0x7fff)
      = v - Int.sign v := by
  have hv : |v| ≤ 2 ^ 53 := by
    rw [abs_le]
    constructor <;> omega
  have ht := truncToInt_scaled v hlo hhi
  norm_num at ht
  rw [sample_exact v hv, scaled_exact v hlo hhi, Float64.toInt, ht]
  have hs : -1 ≤ Int.sign v ∧ Int.sign v ≤ 1 := by
    rcases lt_trichotomy v 0 with h | h | h
    · rw [Int.sign_eq_neg_one_of_neg h]; omega
    · subst h; simp
    · rw [Int.sign_eq_one_of_pos h]; omega
  rw [if_pos (by constructor <;> omega)]

theorem Float64.round_near (q : ℚ) (L n : Int) (h1 : (2 : ℚ) ^ L ≤ |q|)
    (h2 : |q| < (2 : ℚ) ^ (L + 1)) (hL : -1022 ≤ L)
    (hn : |q / 2 ^ (L - 52) - n| < 1 / 2) (hfin : |(n : ℚ) * 2 ^ (L - 52)| < 2 ^ 1024) :
    Float64.round q = .finite ((n : ℚ) * 2 ^ (L - 52)) := by
  have hu : Float64.ulpExp q = L - 52 := by
    rw [Float64.ulpExp_eq q L h1 h2]
    omega
  rw [Float64.round, hu, roundHalfEven_near _ n hn, if_neg (not_le.mpr hfin)]

theorem Float64.round_tie_even (q : ℚ) (L n : Int) (h1 : (2 : ℚ) ^ L ≤ |q|)
    (h2 : |q| < (2 : ℚ) ^ (L + 1)) (hL : -1022 ≤ L)
    (hn : q / 2 ^ (L - 52) = (n : ℚ) + 1 / 2) (heven : n % 2 = 0)
    (hfin : |(n : ℚ) * 2 ^ (L - 52)| < 2 ^ 1024) :
    Float64.round q = .finite ((n : ℚ) * 2 ^ (L - 52)) := by
  have hu : Float64.ulpExp q = L - 52 := by
    rw [Float64.ulpExp_eq q L h1 h2]
    omega
  rw [Float64.round, hu, hn, roundHalfEven_tie_even n heven, if_neg (not_le.mpr hfin)]

theorem two_pow_1024_gt : (2 : ℚ) ^ 80 < 2 ^ 1024 :=
  pow_lt_pow_right₀ (by norm_num) (by norm_num)

/-! ## Properties of AsSamples -/

theorem AsSamples.channel_eq (data : List Int) (C F i : Nat) (hi : i < C)
    (hlen : C * F ≤ data.length) :
    ∀ (r k fuel : Nat) (acc : List Float64), k + r = F → r ≤ fuel →
      AsSamples.channel data (C : Int) ((C : Int) * (F : Int)) fuel ((i + k * C : Nat) : Int) acc
        = .ok (acc ++ channelSamples data C i k r) := by
  intro r
  induction r with
  | zero =>
    intro k fuel acc hk _
    have hge : ¬ (((i + k * C : Nat) : Int) < (C : Int) * (F : Int)) := by
      have : C * F ≤ i + k * C := by
        have : k = F := by omega
        subst this
        rw [Nat.mul_comm]; omega
      have h2 : ((C * F : Nat) : Int) ≤ ((i + k * C : Nat) : Int) := by exact_mod_cast this
      push_cast at h2 ⊢
      omega
    cases fuel <;> rw [AsSamples.channel, if_neg hge] <;> simp [channelSamples]
  | succ r ih =>
    intro k fuel acc hk hfuel
    obtain ⟨fuel, rfl⟩ : ∃ f, fuel = f + 1 := ⟨fuel - 1, by omega⟩
    have hkF : k + 1 ≤ F := by omega
    have hjn : i + k * C < C * F := by
      calc i + k * C < C + k * C := by omega
        _ = (k + 1) * C := by ring
        _ ≤ F * C := Nat.mul_le_mul_right C hkF
        _ = C * F := Nat.mul_comm _ _
    have hlt : ((i + k * C : Nat) : Int) < (C : Int) * (F : Int) := by
      have h2 : ((i + k * C : Nat) : Int) < ((C * F : Nat) : Int) := by exact_mod_cast hjn
      push_cast at h2 ⊢
      exact h2
    have hnn : ¬ (((i + k * C : Nat) : Int) < 0) := by omega
    have hidx : i + k * C < data.length := by omega
    have hget : data[(((i + k * C : Nat) : Int)).toNat]? = some (data.getD (k * C + i) 0) := by
      rw [Int.toNat_ofNat, Nat.add_comm i, List.getD_eq_getElem?_getD,
        List.getElem?_eq_getElem (by omega)]
      simp
    have hnext : ((i + k * C : Nat) : Int) + (C : Int) = ((i + (k + 1) * C : Nat) : Int) := by
      push_cast; ring
    rw [AsSamples.channel, if_pos hlt, if_neg hnn, hget]
    simp only
    rw [hnext, ih (k + 1) fuel _ (by omega) (by omega)]
    simp [channelSamples, List.range'_succ]

theorem AsSamples.channels_eq (data : List Int) (C F fuel : Nat)
    (hlen : C * F ≤ data.length) (hfuel : F ≤ fuel) :
    ∀ (is : List Nat), (∀ i ∈ is, i < C) →
      AsSamples.channels data (C : Int) ((C : Int) * (F : Int)) fuel is
        = .ok (is.map (fun i => channelSamples data C i 0 F)) := by
  intro is
  induction is with
  | nil => intro _; rfl
  | cons i rest ih =>
    intro h
    have hi : i < C := h i (by simp)
    have hc := AsSamples.channel_eq data C F i hi hlen F 0 fuel [] (by omega) hfuel
    simp only [Nat.zero_mul, Nat.add_zero, List.nil_append] at hc
    rw [AsSamples.channels, hc]
    simp only
    rw [ih (fun j hj => h j (by simp [hj]))]
    simp

theorem NumFrames_of_channels (ib : IntBuffer) (fmt : Format) (C : Nat)
    (hfmt : ib.Format = some fmt) (hC : fmt.NumChannels = (C : Int)) (hpos : 1 ≤ C) :
    ib.NumFrames = ((ib.Data.length / C : Nat) : Int) := by
  have hne : ¬ ((C : Int) = 0) := by omega
  simp only [IntBuffer.NumFrames, hfmt, hC, if_neg hne]
  exact (Int.ofNat_tdiv _ _).symm

/-- Closed form of `AsSamples` on an integer buffer with `C ≥ 1` channels. -/
theorem AsSamples_closed (ib : IntBuffer) (fmt : Format) (C : Nat)
    (hfmt : ib.Format = some fmt) (hC : fmt.NumChannels = (C : Int)) (hpos : 1 ≤ C) :
    AsSamples (some (.IntBuf ib)) = .ok (.ok (some ((List.range C).map
      (fun i => channelSamples ib.Data C i 0 (ib.Data.length / C))))) := by
  have hnn : ¬ ((C : Int) < 0) := by omega
  have hF := NumFrames_of_channels ib fmt C hfmt hC hpos
  have hlen : C * (ib.Data.length / C) ≤ ib.Data.length := Nat.mul_div_le _ _
  have hfuel : ib.Data.length / C ≤ ib.Data.length + 1 :=
    Nat.le_trans (Nat.div_le_self _ _) (Nat.le_succ _)
  have hch := AsSamples.channels_eq ib.Data C (ib.Data.length / C) (ib.Data.length + 1)
    hlen hfuel (List.range C) (fun i hi => List.mem_range.mp hi)
  simp only [AsSamples, AudioBuffer.PCMFormat, AudioBuffer.NumFrames, hfmt, hC, if_neg hnn, hF,
    Int.toNat_ofNat, hch]

theorem channelSamples_length (data : List Int) (C i k r : Nat) :
    (channelSamples data C i k r).length = r := by
  simp [channelSamples]

theorem channelSamples_getElem? (data : List Int) (C i F k : Nat) (hk : k < F) :
    (channelSamples data C i 0 F)[k]?
      = some (Float64.div (Float64.ofInt (data.getD (k * C + i) 0)) 0x8000) := by
  simp [channelSamples, List.getElem?_map, List.getElem?_range', hk]

theorem channelSamples_take (data : List Int) (C i F : Nat) (hi : i < C) :
    channelSamples (data.take (C * F)) C i 0 F = channelSamples data C i 0 F := by
  unfold channelSamples
  apply List.map_congr_left
  intro t ht
  have htF : t < F := by
    have := List.mem_range'.mp ht
    obtain ⟨j, hj, rfl⟩ := this
    omega
  have hlt : t * C + i < C * F := by
    calc t * C + i < t * C + C := by omega
      _ = (t + 1) * C := by ring
      _ ≤ F * C := Nat.mul_le_mul_right C htF
      _ = C * F := Nat.mul_comm _ _
  simp [List.getD_eq_getElem?_getD, List.getElem?_take, hlt]

/-! ## Properties of AsBuffer -/

theorem AsBuffer.frame_filled (s : Buffer) (F i : Nat)
    (hs : ∀ ch ∈ s, ch.length = F) (hi : i < F) :
    ∀ (r j0 : Nat) (data : List Int), j0 + r = s.length →
      AsBuffer.Filled s s.length (s.length * F) data (i * s.length + j0) →
      ∃ data1, AsBuffer.frame s s.length i (List.range' j0 r) data = .ok data1 ∧
        AsBuffer.Filled s s.length (s.length * F) data1 (i * s.length + j0 + r) := by
  intro r
  induction r with
  | zero =>
    intro j0 data _ hinv
    exact ⟨data, by simp [AsBuffer.frame], by simpa using hinv⟩
  | succ r ih =>
    intro j0 data hj hinv
    have hj0 : j0 < s.length := by omega
    have hch : s[j0]? = some s[j0] := List.getElem?_eq_getElem hj0
    have hchlen : (s[j0]).length = F := hs _ (List.getElem_mem hj0)
    have hx : (s[j0])[i]? = some ((s[j0])[i]) := List.getElem?_eq_getElem (by omega)
    have hp : i * s.length + j0 < s.length * F := by
      calc i * s.length + j0 < i * s.length + s.length := by omega
        _ = (i + 1) * s.length := by ring
        _ ≤ F * s.length := Nat.mul_le_mul_right _ hi
        _ = s.length * F := Nat.mul_comm _ _
    have hpd : i * s.length + j0 < data.length := by rw [hinv.1]; exact hp
    have hmod : (i * s.length + j0) % s.length = j0 := by
      rw [Nat.add_comm, Nat.add_mul_mod_self_right, Nat.mod_eq_of_lt hj0]
    have hdiv : (i * s.length + j0) / s.length = i := by
      rw [Nat.add_comm, Nat.add_mul_div_right _ _ (by omega), Nat.div_eq_of_lt hj0, Nat.zero_add]
    have hval : Float64.toInt (Float64.mul ((s[j0])[i]) 0x7fff) = interleavedAt s s.length (i * s.length + j0) := by
      simp [interleavedAt, hmod, hdiv, List.getD_eq_getElem?_getD, hch, hx]
    have hinv1 : AsBuffer.Filled s s.length (s.length * F)
        (data.set (i * s.length + j0) (Float64.toInt (Float64.mul ((s[j0])[i]) 0x7fff)))
        (i * s.length + (j0 + 1)) := by
      refine ⟨by rw [List.length_set]; exact hinv.1, ?_⟩
      intro q hq
      by_cases hqe : q = i * s.length + j0
      · subst hqe
        rw [List.getElem?_set_self hpd, hval]
      · rw [List.getElem?_set_ne (fun h => hqe h.symm)]
        exact hinv.2 q (by omega)
    obtain ⟨data1, hrun, hfin⟩ := ih (j0 + 1) _ (by omega) hinv1
    refine ⟨data1, ?_, ?_⟩
    · rw [List.range'_succ, AsBuffer.frame, hch]
      simp only
      rw [hx]
      simp only
      rw [if_pos hpd, hrun]
    · have : i * s.length + j0 + (r + 1) = i * s.length + (j0 + 1) + r := by omega
      rw [this]; exact hfin

theorem AsBuffer.frames_filled (s : Buffer) (F : Nat) (hs : ∀ ch ∈ s, ch.length = F) :
    ∀ (r i0 : Nat) (data : List Int), i0 + r = F →
      AsBuffer.Filled s s.length (s.length * F) data (i0 * s.length) →
      ∃ data1, AsBuffer.frames s s.length (List.range' i0 r) data = .ok data1 ∧
        AsBuffer.Filled s s.length (s.length * F) data1 (F * s.length) := by
  intro r
  induction r with
  | zero =>
    intro i0 data hi hinv
    have : i0 = F := by omega
    subst this
    exact ⟨data, by simp [AsBuffer.frames], hinv⟩
  | succ r ih =>
    intro i0 data hi hinv
    obtain ⟨data1, hrun, hfin⟩ := AsBuffer.frame_filled s F i0 hs (by omega) s.length 0 data
      (by omega) (by simpa using hinv)
    have hfin1 : AsBuffer.Filled s s.length (s.length * F) data1 ((i0 + 1) * s.length) := by
      have : (i0 + 1) * s.length = i0 * s.length + 0 + s.length := by ring
      rw [this]; exact hfin
    obtain ⟨data2, hrun2, hfin2⟩ := ih (i0 + 1) data1 (by omega) hfin1
    refine ⟨data2, ?_, hfin2⟩
    rw [List.range'_succ, AsBuffer.frames, List.range_eq_range', hrun]
    simp only
    rw [hrun2]

/-- Closed form of `AsBuffer` on an integer target and a rectangular sample
buffer with at least one channel. -/
theorem AsBuffer_closed (ib : IntBuffer) (s : Buffer) (F : Nat)
    (hC : 1 ≤ s.length) (hs : ∀ ch ∈ s, ch.length = F) :
    AsBuffer (some (.IntBuf ib)) (some s) = .ok (some (.IntBuf { ib with
      Data := (List.range (s.length * F)).map (interleavedAt s s.length) }), none) := by
  have h0 : s[0]? = some s[0] := List.getElem?_eq_getElem (by omega)
  have h0len : (s[0]).length = F := hs _ (List.getElem_mem (by omega))
  have hinit : AsBuffer.Filled s s.length (s.length * F) (List.replicate (s.length * F) 0)
      (0 * s.length) := ⟨by simp, by intro q hq; omega⟩
  obtain ⟨data, hrun, hlen, hval⟩ := AsBuffer.frames_filled s F hs F 0 _ (by omega) hinit
  have hdata : data = (List.range (s.length * F)).map (interleavedAt s s.length) := by
    apply List.ext_getElem?
    intro q
    by_cases hq : q < s.length * F
    · rw [hval q (by rw [Nat.mul_comm]; exact hq)]
      simp [List.getElem?_map, List.getElem?_range hq]
    · rw [List.getElem?_eq_none (by omega), List.getElem?_eq_none (by simp; omega)]
  simp only [AsBuffer, h0, h0len, List.range_eq_range']
  rw [List.range_eq_range'] at hdata
  rw [hrun, hdata]

/-! ## Scaling by 0x8000 and back by 0x7fff -/

theorem sample_bounds (v : Int) (hlo : -32768 ≤ v) (hhi : v ≤ 32768) :
    ∃ q, Float64.div (Float64.ofInt v) 0x8000 = .finite q ∧ (-1 : ℚ) ≤ q ∧ q ≤ 1 := by
  have hloq : (-32768 : ℚ) ≤ (v : ℚ) := by exact_mod_cast hlo
  have hhiq : (v : ℚ) ≤ 32768 := by exact_mod_cast hhi
  have hv : |v| ≤ 2 ^ 53 := by
    rw [abs_le]
    constructor <;> omega
  refine ⟨(v : ℚ) / 32768, sample_exact v hv, ?_, ?_⟩
  · rw [le_div_iff₀ (by norm_num)]; linarith
  · rw [div_le_iff₀ (by norm_num)]; linarith

theorem interleavedAt_channelSamples (data : List Int) (C q : Nat) (hpos : 1 ≤ C)
    (hq : q < C * (data.length / C)) :
    interleavedAt ((List.range C).map (fun i => channelSamples data C i 0 (data.length / C))) C q
      = Float64.toInt (Float64.mul (Float64.div (Float64.ofInt (data.getD q 0)) 0x8000)
          0x7fff) := by
  have hmod : q % C < C := Nat.mod_lt _ (by omega)
  have hdiv : q / C < data.length / C := Nat.div_lt_of_lt_mul hq
  have hsum : q / C * C + q % C = q := Nat.div_add_mod' q C
  have h1 : ((List.range C).map (fun i => channelSamples data C i 0 (data.length / C))).getD
      (q % C) [] = channelSamples data C (q % C) 0 (data.length / C) := by
    simp [List.getD_eq_getElem?_getD, List.getElem?_map, List.getElem?_range hmod]
  have h2 : (channelSamples data C (q % C) 0 (data.length / C)).getD (q / C) (.finite 0)
      = Float64.div (Float64.ofInt (data.getD q 0)) 0x8000 := by
    rw [List.getD_eq_getElem?_getD, channelSamples_getElem? _ _ _ _ _ hdiv, hsum]
    simp
  unfold interleavedAt
  rw [h1, h2]

theorem roundTrip_closed (src target : IntBuffer) (fmt : Format) (C : Nat)
    (hfmt : src.Format = some fmt) (hC : fmt.NumChannels = (C : Int)) (hpos : 1 ≤ C)
    (hdvd : C ∣ src.Data.length) :
    roundTrip src target = .ok (some (.IntBuf { target with
      Data := src.Data.map (fun v : Int =>
        Float64.toInt (Float64.mul (Float64.div (Float64.ofInt v) 0x8000) 0x7fff)) }), none) := by
  have hn : C * (src.Data.length / C) = src.Data.length := Nat.mul_div_cancel' hdvd
  have hsl : ((List.range C).map
      (fun i => channelSamples src.Data C i 0 (src.Data.length / C))).length = C := by simp
  have hcl := AsBuffer_closed target
    ((List.range C).map (fun i => channelSamples src.Data C i 0 (src.Data.length / C)))
    (src.Data.length / C) (by rw [hsl]; exact hpos)
    (by
      intro ch hch
      obtain ⟨i, _, rfl⟩ := List.mem_map.mp hch
      exact channelSamples_length _ _ _ _ _)
  rw [hsl, hn] at hcl
  rw [roundTrip, AsSamples_closed src fmt C hfmt hC hpos]
  simp only
  rw [hcl]
  have hdata : (List.range src.Data.length).map (interleavedAt ((List.range C).map
      (fun i => channelSamples src.Data C i 0 (src.Data.length / C))) C)
      = src.Data.map (fun v : Int =>
        Float64.toInt (Float64.mul (Float64.div (Float64.ofInt v) 0x8000) 0x7fff)) := by
    apply List.ext_getElem?
    intro q
    by_cases hq : q < src.Data.length
    · rw [List.getElem?_map, List.getElem?_range hq, List.getElem?_map,
        List.getElem?_eq_getElem hq]
      simp only [Option.map_some']
      rw [interleavedAt_channelSamples _ _ _ hpos (by rw [hn]; exact hq),
        List.getD_eq_getElem?_getD, List.getElem?_eq_getElem hq]
      simp
    · rw [List.getElem?_eq_none (by simp; omega), List.getElem?_eq_none (by simp; omega)]
  rw [hdata]

theorem AsSamples_no_channels (ib : IntBuffer) (fmt : Format)
    (hfmt : ib.Format = some fmt) (hC : fmt.NumChannels = 0) :
    AsSamples (some (.IntBuf ib)) = .ok (.ok (some [])) := by
  simp [AsSamples, AudioBuffer.PCMFormat, hfmt, hC, AsSamples.channels]

theorem AsSamples_negative_channels (ib : IntBuffer) (fmt : Format)
    (hfmt : ib.Format = some fmt) (hC : fmt.NumChannels < 0) :
    AsSamples (some (.IntBuf ib)) = .error .MakeLenOutOfRange := by
  simp [AsSamples, AudioBuffer.PCMFormat, hfmt, hC]

theorem signedRange_le_16 (bits v : Int) (hbits : bits ≤ 16) (hv : inSignedRange bits v) :
    -32768 ≤ v ∧ v ≤ 32768 := by
  have hk : bits.toNat - 1 ≤ 15 := by omega
  have hpow : (2 : Int) ^ (bits.toNat - 1) ≤ 2 ^ 15 :=
    pow_le_pow_right₀ (by norm_num) hk
  have h15 : (2 : Int) ^ 15 = 32768 := by norm_num
  obtain ⟨h1, h2⟩ := hv
  constructor <;> omega

theorem channelSamples_bounds (data : List Int) (C i k r : Nat)
    (hdata : ∀ v ∈ data, -32768 ≤ v ∧ v ≤ 32768) :
    ∀ x ∈ channelSamples data C i k r, ∃ q, x = .finite q ∧ (-1 : ℚ) ≤ q ∧ q ≤ 1 := by
  intro x hx
  obtain ⟨t, _, rfl⟩ := List.mem_map.mp hx
  have hv : -32768 ≤ data.getD (t * C + i) 0 ∧ data.getD (t * C + i) 0 ≤ 32768 := by
    rw [List.getD_eq_getElem?_getD]
    cases hget : data[t * C + i]? with
    | none => simp
    | some v => simpa using hdata v (List.getElem?_mem hget)
  exact sample_bounds _ hv.1 hv.2

/-! ## The single-use guard of Asset and Pump -/

theorem Asset_Sink_unused (a : Asset) (name : String) (h : a.once.done = false) :
    a.Sink name = ({ a with once := { done := true } }, .ok Asset.sinkFunc) := by
  simp [Asset.Sink, SingleUse, h]

theorem Asset_Sink_used (a : Asset) (name : String) (h : a.once.done = true) :
    a.Sink name = (a, .error .ErrSingleUseReused) := by
  simp [Asset.Sink, SingleUse, h]

theorem Asset_Sink_done (a : Asset) (name : String) : (a.Sink name).1.once.done = true := by
  cases h : a.once.done
  · rw [Asset_Sink_unused a name h]
  · rw [Asset_Sink_used a name h]; exact h

theorem Asset_sinkFunc_once (a a1 : Asset) (b : Buffer) (e : Option Error)
    (h : a.sinkFunc b = .ok (a1, e)) : a1.once = a.once := by
  unfold Asset.sinkFunc at h
  split at h
  · cases h
  · cases h; rfl

theorem Asset_call_done (a a1 : Asset) (c : AssetCall) (hd : a.once.done = true)
    (h : a.call c = .ok a1) : a1.once.done = true := by
  cases c with
  | setup name =>
    simp only [Asset.call, Except.ok.injEq] at h
    rw [← h]; exact Asset_Sink_done a name
  | consume b =>
    simp only [Asset.call] at h
    split at h
    · cases h
    · next a2 e heq =>
      cases h
      rw [Asset_sinkFunc_once a _ b e heq]; exact hd

theorem Asset_calls_done (cs : List AssetCall) :
    ∀ (a a1 : Asset), a.once.done = true → Asset.calls a cs = .ok a1 → a1.once.done = true := by
  induction cs with
  | nil =>
    intro a a1 hd h
    simp only [Asset.calls, Except.ok.injEq] at h
    rw [← h]; exact hd
  | cons c cs ih =>
    intro a a1 hd h
    simp only [Asset.calls] at h
    split at h
    · cases h
    · next a2 heq => exact ih a2 a1 (Asset_call_done a a2 c hd heq) h

theorem Pump_Pump_unused (p : Pump) (name : String) (h : p.once.done = false) :
    p.Pump name = ({ p with once := { done := true } }, .ok Pump.pumpFunc) := by
  simp [Pump.Pump, SingleUse, h]

theorem Pump_Pump_used (p : Pump) (name : String) (h : p.once.done = true) :
    p.Pump name = (p, .error .ErrSingleUseReused) := by
  simp [Pump.Pump, SingleUse, h]

theorem Pump_Pump_done (p : Pump) (name : String) : (p.Pump name).1.once.done = true := by
  cases h : p.once.done
  · rw [Pump_Pump_unused p name h]
  · rw [Pump_Pump_used p name h]; exact h

theorem Pump_pumpFunc_once (p p1 : Pump) (r : Except Error (Option Buffer))
    (h : p.pumpFunc = .ok (p1, r)) : p1.once = p.once := by
  unfold Pump.pumpFunc at h
  split at h
  · cases h; rfl
  · split at h
    dsimp only at h
    split at h
    · cases h; rfl
    · split at h
      · cases h; rfl
      · split at h
        · cases h
        · split at h
          · cases h
          · split at h
            · cases h
            · cases h; rfl
            · cases h; rfl

theorem Pump_Flush_once (p : Pump) (name : String) : (p.Flush name).1.once = p.once := by
  unfold Pump.Flush
  repeat' split
  all_goals rfl

theorem Pump_call_done (p p1 : Pump) (c : PumpCall) (hd : p.once.done = true)
    (h : p.call c = .ok p1) : p1.once.done = true := by
  cases c with
  | setup name =>
    simp only [Pump.call, Except.ok.injEq] at h
    rw [← h]; exact Pump_Pump_done p name
  | produce =>
    simp only [Pump.call] at h
    split at h
    · cases h
    · next p2 r heq =>
      cases h
      rw [Pump_pumpFunc_once p _ r heq]; exact hd
  | flush name =>
    simp only [Pump.call, Except.ok.injEq] at h
    rw [← h, Pump_Flush_once]; exact hd

theorem Pump_calls_done (cs : List PumpCall) :
    ∀ (p p1 : Pump), p.once.done = true → Pump.calls p cs = .ok p1 → p1.once.done = true := by
  induction cs with
  | nil =>
    intro p p1 hd h
    simp only [Pump.calls, Except.ok.injEq] at h
    rw [← h]; exact hd
  | cons c cs ih =>
    intro p p1 hd h
    simp only [Pump.calls] at h
    split at h
    · cases h
    · next p2 heq => exact ih p2 p1 (Pump_call_done p p2 c hd heq) h

theorem NewPump_once (opened : Except Error Decoder) (bufferSize : Int) (p : Pump)
    (h : NewPump opened bufferSize = .ok (.ok p)) : p.once.done = false := by
  unfold NewPump at h
  repeat' split at h
  all_goals first
    | (cases h; rfl)
    | cases h

/-! ## The pump function of the wav pump -/

theorem AsSamples_returns (ib : IntBuffer) (fmt : Format)
    (hfmt : ib.Format = some fmt) (h0 : 0 ≤ fmt.NumChannels) :
    ∃ s, AsSamples (some (.IntBuf ib)) = .ok (.ok (some s)) := by
  rcases lt_or_eq_of_le h0 with hpos | hzero
  · obtain ⟨C, hC⟩ := Int.eq_ofNat_of_zero_le h0
    exact ⟨_, AsSamples_closed ib fmt C hfmt hC (by omega)⟩
  · exact ⟨_, AsSamples_no_channels ib fmt hfmt hzero.symm⟩

theorem AsSamples_error (ib : IntBuffer) (e : Error)
    (h : AsSamples (some (.IntBuf ib)) = .ok (.error e)) : e = .FormatNotDefined := by
  unfold AsSamples at h
  dsimp only at h
  split at h
  · cases h; rfl
  · split at h
    · cases h
    · split at h
      · cases h
      · cases h

theorem PCMBuffer_error (d d1 : Decoder) (buf buf1 : Option IntBuffer) (n : Int) (e : Error)
    (h : d.PCMBuffer buf = (d1, buf1, n, some e)) : ∃ code, e = .External code := by
  unfold Decoder.PCMBuffer at h
  split at h
  · cases h
  · split at h
    · cases h
    · next r rest _ =>
      simp only [Prod.mk.injEq] at h
      obtain ⟨_, _, _, herr⟩ := h
      cases hr : r.err with
      | none => rw [hr] at herr; cases herr
      | some code => rw [hr] at herr; cases herr; exact ⟨code, rfl⟩

/-! ## Appending buffers -/

theorem Append_no_channels (b : Buffer) : Buffer.Append b [] = .ok b := by
  simp [Buffer.Append, Buffer.NumChannels]

theorem Append_to_empty (source : Buffer) (h : 1 ≤ source.length) :
    Buffer.Append [] source = .ok source := by
  have : ¬ (source.length = 0) := by omega
  simp [Buffer.Append, Buffer.NumChannels, this]

theorem Append_same_channels (b source : Buffer) (C : Nat) (hC : 1 ≤ C)
    (hb : b.length = C) (hs : source.length = C) :
    Buffer.Append b source = .ok (List.zipWith (fun x y => x ++ y) b source) := by
  have h0 : ¬ (C = 0) := by omega
  simp [Buffer.Append, Buffer.NumChannels, hb, hs, h0]

theorem range_map_getD (b : Buffer) (C : Nat) (hb : b.length = C) :
    (List.range C).map (fun j => b.getD j []) = b := by
  apply List.ext_getElem?
  intro q
  by_cases hq : q < C
  · simp [List.getElem?_map, List.getElem?_range hq, List.getD_eq_getElem?_getD,
      List.getElem?_eq_getElem (show q < b.length by omega)]
  · rw [List.getElem?_eq_none (by simp; omega), List.getElem?_eq_none (by omega)]

theorem zipWith_append_getD (b source : Buffer) (C j : Nat)
    (hb : b.length = C) (hs : source.length = C) (hj : j < C) :
    (List.zipWith (fun x y => x ++ y) b source).getD j [] = b.getD j [] ++ source.getD j [] := by
  simp [List.getD_eq_getElem?_getD, List.getElem?_zipWith,
    List.getElem?_eq_getElem (show j < b.length by omega),
    List.getElem?_eq_getElem (show j < source.length by omega)]

theorem Size_eq_getD (b : Buffer) : Buffer.Size b = (b.getD 0 []).length := by
  cases b <;> simp [Buffer.Size]

theorem Asset_feed_channels (C : Nat) (hC : 1 ≤ C) (bs : List Buffer) :
    ∀ (a : Asset), a.Buffer.length = C → (∀ b ∈ bs, b.length = C) →
      Asset.feed Asset.sinkFunc a bs = .ok ({ a with
        Buffer := (List.range C).map (fun j => a.Buffer.getD j [] ++ channelConcat bs j) },
        List.replicate bs.length none) := by
  induction bs with
  | nil =>
    intro a ha _
    have hmap : (List.range C).map (fun j => a.Buffer.getD j [] ++ channelConcat [] j)
        = (List.range C).map (fun j => a.Buffer.getD j []) := by
      apply List.map_congr_left
      intro j _
      simp [channelConcat]
    rw [hmap, range_map_getD a.Buffer C ha]
    rfl
  | cons b bs ih =>
    intro a ha hbs
    have hb : b.length = C := hbs b (by simp)
    have happ := Append_same_channels a.Buffer b C hC ha hb
    have hlen : (List.zipWith (fun x y => x ++ y) a.Buffer b).length = C := by
      simp [ha, hb]
    have hrest := ih { a with Buffer := List.zipWith (fun x y => x ++ y) a.Buffer b } hlen
      (fun b1 h1 => hbs b1 (by simp [h1]))
    have hmap : (List.range C).map (fun j =>
          (List.zipWith (fun x y => x ++ y) a.Buffer b).getD j [] ++ channelConcat bs j)
        = (List.range C).map (fun j => a.Buffer.getD j [] ++ channelConcat (b :: bs) j) := by
      apply List.map_congr_left
      intro j hj
      rw [zipWith_append_getD a.Buffer b C j ha hb (List.mem_range.mp hj)]
      simp [channelConcat]
    simp only [Asset.feed, Asset.sinkFunc, happ, hrest, hmap]
    simp [List.replicate_succ]

/-! ## Claims about the wav conversions -/

/-- C5 (as stated, refuted): the one-channel buffer holding the single value
`2^53 + 1` is converted to the sample `274877906944`, that is `2^53 / 32768`,
and not to `(2^53 + 1) / 32768`: `float64(v)` rounds the value first. -/
theorem AsSamples_rounds_large_values :
    AsSamples (some (.IntBuf ⟨some ⟨1, 44100⟩, [2 ^ 53 + 1], 64⟩))
        = .ok (.ok (some [[.finite 274877906944]])) ∧
      (274877906944 : ℚ) ≠ ((2 ^ 53 + 1 : Int) : ℚ) / 32768 := by
  refine ⟨?_, by norm_num⟩
  have hconv : Float64.ofInt (2 ^ 53 + 1) = .finite (2 ^ 53) := by
    have h := Float64.round_tie_even ((2 ^ 53 + 1 : Int) : ℚ) 53 (2 ^ 52)
      (by norm_num) (by norm_num) (by norm_num) (by norm_num) (by norm_num)
      (lt_trans (by norm_num [abs_lt]) two_pow_1024_gt)
    rw [Float64.ofInt, h]
    norm_num
  have hquot : Float64.div (.finite (2 ^ 53)) 0x8000 = .finite 274877906944 := by
    have h := Float64.round_dyadic (2 ^ 53) 15 (by norm_num) (by norm_num)
    rw [Float64.div]
    norm_num at h ⊢
    exact h
  have hval : Float64.div (Float64.ofInt 9007199254740993) 32768
      = .finite 274877906944 := by
    have e : (9007199254740993 : Int) = 2 ^ 53 + 1 := by norm_num
    rw [e, hconv]
    exact hquot
  rw [AsSamples_closed _ ⟨1, 44100⟩ 1 rfl rfl (by decide)]
  simp [channelSamples, List.range, List.range.loop, List.range', hval]

/-- C5 (amended): for an integer PCM buffer with a defined format of `C ≥ 1`
channels and data of any length `n`, `AsSamples` returns without error a buffer
of exactly `C` channels, each of length `n / C` (floor), in which sample `k` of
channel `i` is the `float64` value `float64(data[k*C + i]) / 0x8000`; this is
`data[k*C + i] / 32768` exactly whenever the magnitude of `data[k*C + i]` is at
most `2^53`.  The data beyond `C * (n / C)` is ignored: the same buffer is
returned when it is cut off. -/
theorem AsSamples_deinterleaves (ib : IntBuffer) (fmt : Format) (C : Nat)
    (hfmt : ib.Format = some fmt) (hC : fmt.NumChannels = (C : Int)) (hpos : 1 ≤ C) :
    ∃ s : Buffer, AsSamples (some (.IntBuf ib)) = .ok (.ok (some s)) ∧ s.length = C ∧
      (∀ i, i < C → ∃ ch, s[i]? = some ch ∧ ch.length = ib.Data.length / C ∧
        ∀ k, k < ib.Data.length / C →
          ∃ v, ib.Data[k * C + i]? = some v ∧
            ch[k]? = some (Float64.div (Float64.ofInt v) 0x8000) ∧
            (|v| ≤ 2 ^ 53 → ch[k]? = some (.finite ((v : ℚ) / 32768)))) ∧
      AsSamples (some (.IntBuf { ib with Data := ib.Data.take (C * (ib.Data.length / C)) }))
        = .ok (.ok (some s)) := by
  refine ⟨_, AsSamples_closed ib fmt C hfmt hC hpos, by simp, ?_, ?_⟩
  · intro i hi
    refine ⟨channelSamples ib.Data C i 0 (ib.Data.length / C), ?_, channelSamples_length _ _ _ _ _, ?_⟩
    · simp [List.getElem?_map, List.getElem?_range hi]
    · intro k hk
      have hidx : k * C + i < ib.Data.length := by
        calc k * C + i < k * C + C := by omega
          _ = (k + 1) * C := by ring
          _ ≤ (ib.Data.length / C) * C := Nat.mul_le_mul_right C hk
          _ ≤ ib.Data.length := Nat.div_mul_le_self _ _
      have hval : (channelSamples ib.Data C i 0 (ib.Data.length / C))[k]?
          = some (Float64.div (Float64.ofInt ib.Data[k * C + i]) 0x8000) := by
        rw [channelSamples_getElem? _ _ _ _ _ hk, List.getD_eq_getElem?_getD,
          List.getElem?_eq_getElem hidx]
        rfl
      refine ⟨ib.Data[k * C + i], List.getElem?_eq_getElem hidx, hval, ?_⟩
      intro hv
      rw [hval, sample_exact _ hv]
  · have hle : C * (ib.Data.length / C) ≤ ib.Data.length := Nat.mul_div_le _ _
    have hcl := AsSamples_closed { ib with Data := ib.Data.take (C * (ib.Data.length / C)) }
      fmt C hfmt hC hpos
    have hlen : (ib.Data.take (C * (ib.Data.length / C))).length / C = ib.Data.length / C := by
      rw [List.length_take, Nat.min_eq_left hle, Nat.mul_div_cancel_left _ (by omega)]
    rw [hcl]
    simp only [hlen]
    congr 3
    apply List.map_congr_left
    intro i hi
    exact channelSamples_take _ _ _ _ (List.mem_range.mp hi)

theorem AsSamples_deinterleaves_witness :
    ∃ s : Buffer, AsSamples (some (.IntBuf ⟨some ⟨2, 44100⟩, [1, -1, 32767, -32768, 5], 16⟩))
        = .ok (.ok (some s)) ∧ s.length = 2 ∧
      (∀ i, i < 2 → ∃ ch, s[i]? = some ch ∧
        ch.length = ([1, -1, 32767, -32768, 5] : List Int).length / 2 ∧
        ∀ k, k < ([1, -1, 32767, -32768, 5] : List Int).length / 2 →
          ∃ v, ([1, -1, 32767, -32768, 5] : List Int)[k * 2 + i]? = some v ∧
            ch[k]? = some (Float64.div (Float64.ofInt v) 0x8000) ∧
            (|v| ≤ 2 ^ 53 → ch[k]? = some (.finite ((v : ℚ) / 32768)))) ∧
      AsSamples (some (.IntBuf ⟨some ⟨2, 44100⟩, ([1, -1, 32767, -32768, 5] : List Int).take
        (2 * (([1, -1, 32767, -32768, 5] : List Int).length / 2)), 16⟩)) = .ok (.ok (some s)) :=
  AsSamples_deinterleaves ⟨some ⟨2, 44100⟩, [1, -1, 32767, -32768, 5], 16⟩ ⟨2, 44100⟩ 2
    rfl rfl (by decide)

/-- C6 (as stated, refuted): the sample `float64(1)/32767`, which is
`35185445863425 / 2^60` and lies in `[-1, 1]`, is stored as `1`, although its
product with `32767` is below `1` and truncates to `0`: the product is rounded
to the nearest `float64`, here `1`, before it is truncated.  And the sample
`10^19` is stored as the least `int`, its product being no `int` at all. -/
theorem AsBuffer_rounds_product :
    Float64.div (.finite 1) 32767 = .finite (35185445863425 / 2 ^ 60) ∧
      AsBuffer (some (.IntBuf ⟨none, [], 16⟩)) (some [[.finite (35185445863425 / 2 ^ 60)]])
        = .ok (some (.IntBuf ⟨none, [1], 16⟩), none) ∧
      truncToInt ((35185445863425 / 2 ^ 60 : ℚ) * 32767) = 0 ∧
      AsBuffer (some (.IntBuf ⟨none, [], 16⟩)) (some [[.finite (10 ^ 19)]])
        = .ok (some (.IntBuf ⟨none, [-(2 ^ 63)], 16⟩), none) ∧
      truncToInt ((10 ^ 19 : ℚ) * 32767) = 327670000000000000000000 := by
  have hx : Float64.div (.finite 1) 32767 = .finite (35185445863425 / 2 ^ 60) := by
    have h := Float64.round_near ((1 : ℚ) / 32767) (-15) 4503737070518400
      (by norm_num [abs_of_pos]) (by norm_num [abs_of_pos]) (by norm_num)
      (by norm_num [abs_lt]) (lt_trans (by norm_num [abs_lt]) two_pow_1024_gt)
    rw [Float64.div, h]
    norm_num
  have hone : Float64.mul (.finite (35185445863425 / 2 ^ 60)) 0x7fff = .finite 1 := by
    have h := Float64.round_near ((35185445863425 : ℚ) / 2 ^ 60 * 0x7fff) (-1) (2 ^ 53)
      (by norm_num [abs_of_pos]) (by norm_num [abs_of_pos]) (by norm_num)
      (by norm_num [abs_lt]) (lt_trans (by norm_num [abs_lt]) two_pow_1024_gt)
    rw [Float64.mul, h]
    norm_num
  have hbig : Float64.mul (.finite (10 ^ 19)) 0x7fff = .finite 327670000000000031981568 := by
    have h := Float64.round_near ((10 : ℚ) ^ 19 * 0x7fff) 78 4882663488388062
      (by norm_num [abs_of_pos]) (by norm_num [abs_of_pos]) (by norm_num)
      (by norm_num [abs_lt]) (lt_trans (by norm_num [abs_lt]) two_pow_1024_gt)
    rw [Float64.mul, h]
    norm_num
  have htone : Float64.toInt (.finite 1) = 1 := by
    have h1 : truncToInt 1 = 1 := by simp [truncToInt]
    simp [Float64.toInt, h1]
  have htbig : Float64.toInt (.finite 327670000000000031981568) = -(2 ^ 63) := by
    have h1 : truncToInt 327670000000000031981568 = 327670000000000031981568 := by
      have h0 : (0 : ℚ) ≤ 327670000000000031981568 := by norm_num
      rw [truncToInt, if_pos h0, Int.floor_eq_iff]
      norm_num
    simp [Float64.toInt, h1]
  refine ⟨hx, ?_, ?_, ?_, ?_⟩
  · rw [AsBuffer_closed _ [[.finite (35185445863425 / 2 ^ 60)]] 1 (by decide) (by simp)]
    simp [interleavedAt, List.range, List.range.loop, hone, htone]
  · have h0 : (0 : ℚ) ≤ 35185445863425 / 2 ^ 60 * 32767 := by norm_num
    rw [truncToInt, if_pos h0, Int.floor_eq_iff]
    norm_num
  · rw [AsBuffer_closed _ [[.finite (10 ^ 19)]] 1 (by decide) (by simp)]
    simp [interleavedAt, List.range, List.range.loop, hbig, htbig]
  · have h0 : (0 : ℚ) ≤ 10 ^ 19 * 32767 := by norm_num
    rw [truncToInt, if_pos h0, Int.floor_eq_iff]
    norm_num

/-- C6 (amended): for a sample buffer `s` with `C ≥ 1` channels, all of length
`F`, and any integer PCM target, `AsBuffer` returns no error and sets the data
of the target to one sequence, the same for every target, of length exactly
`C * F`, whose element `i*C + j` is the conversion to `int` of the `float64`
product `s[j][i] * 0x7fff`, for every frame `i < F` and channel `j < C`: for a
finite sample it is the exact product rounded to the nearest `float64` and then
truncated toward zero, as long as that is a 64-bit `int`. -/
theorem AsBuffer_interleaves (s : Buffer) (F : Nat)
    (hC : 1 ≤ s.length) (hs : ∀ ch ∈ s, ch.length = F) :
    ∃ data : List Int,
      (∀ ib : IntBuffer, AsBuffer (some (.IntBuf ib)) (some s)
        = .ok (some (.IntBuf { ib with Data := data }), none)) ∧
      data.length = s.length * F ∧
      ∀ i j, i < F → j < s.length →
        ∃ ch x, s[j]? = some ch ∧ ch[i]? = some x ∧
          data[i * s.length + j]? = some (Float64.toInt (Float64.mul x 0x7fff)) ∧
          ∀ q r : ℚ, x = .finite q → Float64.round (q * 32767) = .finite r →
            -(2 ^ 63 : Int) ≤ truncToInt r → truncToInt r < (2 ^ 63 : Int) →
            data[i * s.length + j]? = some (truncToInt r) := by
  refine ⟨_, fun ib => AsBuffer_closed ib s F hC hs, by simp, ?_⟩
  intro i j hi hj
  have hchlen : (s[j]).length = F := hs _ (List.getElem_mem hj)
  have hp : i * s.length + j < s.length * F := by
    calc i * s.length + j < i * s.length + s.length := by omega
      _ = (i + 1) * s.length := by ring
      _ ≤ F * s.length := Nat.mul_le_mul_right _ hi
      _ = s.length * F := Nat.mul_comm _ _
  have hmod : (i * s.length + j) % s.length = j := by
    rw [Nat.add_comm, Nat.add_mul_mod_self_right, Nat.mod_eq_of_lt hj]
  have hdiv : (i * s.length + j) / s.length = i := by
    rw [Nat.add_comm, Nat.add_mul_div_right _ _ (by omega), Nat.div_eq_of_lt hj, Nat.zero_add]
  have hval : ((List.range (s.length * F)).map (interleavedAt s s.length))[i * s.length + j]?
      = some (Float64.toInt (Float64.mul ((s[j])[i]) 0x7fff)) := by
    simp [List.getElem?_map, List.getElem?_range hp, interleavedAt, hmod, hdiv,
      List.getD_eq_getElem?_getD, List.getElem?_eq_getElem hj,
      List.getElem?_eq_getElem (show i < (s[j]).length by omega)]
  refine ⟨s[j], (s[j])[i], List.getElem?_eq_getElem hj, List.getElem?_eq_getElem (by omega),
    hval, ?_⟩
  intro q r hq hr hlo hhi
  have hmul : Float64.mul ((s[j])[i]) 0x7fff = .finite r := by
    rw [hq, Float64.mul]
    exact hr
  rw [hval, hmul, Float64.toInt, if_pos ⟨hlo, hhi⟩]

theorem AsBuffer_interleaves_witness :
    ∃ data : List Int,
      (∀ ib : IntBuffer, AsBuffer (some (.IntBuf ib))
          (some [[.finite (1 / 2), .finite 1], [.finite (-1 / 2), .finite 0]])
        = .ok (some (.IntBuf { ib with Data := data }), none)) ∧
      data.length
        = ([[.finite (1 / 2), .finite 1], [.finite (-1 / 2), .finite 0]] : Buffer).length * 2 ∧
      ∀ i j, i < 2 →
        j < ([[.finite (1 / 2), .finite 1], [.finite (-1 / 2), .finite 0]] : Buffer).length →
        ∃ ch x, ([[.finite (1 / 2), .finite 1], [.finite (-1 / 2), .finite 0]] : Buffer)[j]?
            = some ch ∧ ch[i]? = some x ∧
          data[i * ([[.finite (1 / 2), .finite 1], [.finite (-1 / 2), .finite 0]] :
              Buffer).length + j]? = some (Float64.toInt (Float64.mul x 0x7fff)) ∧
          ∀ q r : ℚ, x = .finite q → Float64.round (q * 32767) = .finite r →
            -(2 ^ 63 : Int) ≤ truncToInt r → truncToInt r < (2 ^ 63 : Int) →
            data[i * ([[.finite (1 / 2), .finite 1], [.finite (-1 / 2), .finite 0]] :
              Buffer).length + j]? = some (truncToInt r) :=
  AsBuffer_interleaves [[.finite (1 / 2), .finite 1], [.finite (-1 / 2), .finite 0]] 2
    (by decide) (by simp)

/-- C10: for a non-nil sample buffer with at least one channel whose channels
all have the same length, and any integer PCM target, `AsBuffer` finishes
without a fault: no read `s[j][i]` and no write to `ib.Data[i*C + j]` is out of
range. -/
theorem AsBuffer_in_bounds (ib : IntBuffer) (s : Buffer) (F : Nat)
    (hC : 1 ≤ s.length) (hs : ∀ ch ∈ s, ch.length = F) :
    (∃ r, AsBuffer (some (.IntBuf ib)) (some s) = .ok r) ∧
      ∀ f : Fault, AsBuffer (some (.IntBuf ib)) (some s) ≠ .error f := by
  rw [AsBuffer_closed ib s F hC hs]
  exact ⟨⟨_, rfl⟩, fun f h => by cases h⟩

theorem AsBuffer_in_bounds_witness :
    (∃ r, AsBuffer (some (.IntBuf ⟨none, [7, 7, 7], 16⟩)) (some [[.finite (1 / 2), .finite 1], [.finite (-1 / 2), .finite 0]])
        = .ok r) ∧
      ∀ f : Fault, AsBuffer (some (.IntBuf ⟨none, [7, 7, 7], 16⟩))
        (some [[.finite (1 / 2), .finite 1], [.finite (-1 / 2), .finite 0]]) ≠ .error f :=
  AsBuffer_in_bounds ⟨none, [7, 7, 7], 16⟩
    [[.finite (1 / 2), .finite 1], [.finite (-1 / 2), .finite 0]] 2 (by decide) (by simp)

/-- C4 (as stated, refuted): a one-channel 16-bit buffer holding the single
value `1` comes back from `AsSamples` followed by `AsBuffer` holding `0`. -/
theorem roundTrip_not_exact :
    roundTrip ⟨some ⟨1, 44100⟩, [1], 16⟩ ⟨some ⟨1, 44100⟩, [], 16⟩
        = .ok (some (.IntBuf ⟨some ⟨1, 44100⟩, [0], 16⟩), none) ∧
      roundTrip ⟨some ⟨1, 44100⟩, [1], 16⟩ ⟨some ⟨1, 44100⟩, [], 16⟩
        ≠ .ok (some (.IntBuf ⟨some ⟨1, 44100⟩, [1], 16⟩), none) := by
  have h : roundTrip ⟨some ⟨1, 44100⟩, [1], 16⟩ ⟨some ⟨1, 44100⟩, [], 16⟩
      = .ok (some (.IntBuf ⟨some ⟨1, 44100⟩, [0], 16⟩), none) := by
    rw [roundTrip_closed _ _ ⟨1, 44100⟩ 1 rfl rfl (by decide) (by simp)]
    have h1 := scaled_back 1 (by decide) (by decide)
    simp only [List.map_cons, List.map_nil, h1]
    rfl
  refine ⟨h, ?_⟩
  rw [h]
  intro hc
  simp at hc

/-- C4 (amended): for an integer PCM buffer with `C ≥ 1` channels, a data
length that is a multiple of `C` and every value in the signed 16-bit range,
`AsSamples` followed by `AsBuffer` yields data of the same length in which
every element is the original moved one step toward zero: `v - 1` for `v > 0`,
`v + 1` for `v < 0`, and `0` for `0`. -/
theorem roundTrip_toward_zero (src target : IntBuffer) (fmt : Format) (C : Nat)
    (hfmt : src.Format = some fmt) (hC : fmt.NumChannels = (C : Int)) (hpos : 1 ≤ C)
    (hdvd : C ∣ src.Data.length) (hrange : ∀ v ∈ src.Data, -32768 ≤ v ∧ v ≤ 32767) :
    roundTrip src target = .ok (some (.IntBuf { target with
      Data := src.Data.map (fun v => v - Int.sign v) }), none) := by
  have hdata : src.Data.map (fun v : Int =>
        Float64.toInt (Float64.mul (Float64.div (Float64.ofInt v) 0x8000) 0x7fff))
      = src.Data.map (fun v => v - Int.sign v) := by
    apply List.map_congr_left
    intro v hv
    exact scaled_back v (hrange v hv).1 (by have := (hrange v hv).2; omega)
  rw [roundTrip_closed src target fmt C hfmt hC hpos hdvd, hdata]

theorem roundTrip_toward_zero_witness :
    roundTrip ⟨some ⟨2, 44100⟩, [1, -1, 32767, -32768, 0, 5], 16⟩ ⟨some ⟨2, 44100⟩, [9], 16⟩
      = .ok (some (.IntBuf { (⟨some ⟨2, 44100⟩, [9], 16⟩ : IntBuffer) with
          Data := ([1, -1, 32767, -32768, 0, 5] : List Int).map (fun v => v - Int.sign v) }),
          none) :=
  roundTrip_toward_zero ⟨some ⟨2, 44100⟩, [1, -1, 32767, -32768, 0, 5], 16⟩
    ⟨some ⟨2, 44100⟩, [9], 16⟩ ⟨2, 44100⟩ 2 rfl rfl (by decide) (by decide) (by decide)

/-- C7 (as stated, refuted): the value `65536` lies in the signed range of a
declared source bit depth of 24, and `AsSamples` turns it into the sample `2`,
outside `[-1, 1]`. -/
theorem AsSamples_exceeds_unit_range :
    (∀ v ∈ ([65536] : List Int), inSignedRange 24 v) ∧
      AsSamples (some (.IntBuf ⟨some ⟨1, 44100⟩, [65536], 24⟩))
        = .ok (.ok (some [[.finite 2]])) ∧
      ¬ ((2 : ℚ) ≤ 1) := by
  refine ⟨by decide, ?_, by norm_num⟩
  have h := sample_exact 65536 (by norm_num)
  norm_num at h
  rw [AsSamples_closed _ ⟨1, 44100⟩ 1 rfl rfl (by decide)]
  simp [channelSamples, List.range, List.range.loop, List.range', h]

/-- C7 (amended): for an integer PCM buffer with a defined format whose
declared source bit depth is at most 16 and whose data values lie in the signed
range of that bit depth, every sample of the buffer returned by `AsSamples`
is finite and lies in the closed range `[-1, 1]`; and the buffer is returned
whenever the channel count is not negative. -/
theorem AsSamples_unit_range (ib : IntBuffer) (fmt : Format)
    (hfmt : ib.Format = some fmt) (hbits : ib.SourceBitDepth ≤ 16)
    (hdata : ∀ v ∈ ib.Data, inSignedRange ib.SourceBitDepth v) :
    (0 ≤ fmt.NumChannels → ∃ s, AsSamples (some (.IntBuf ib)) = .ok (.ok (some s))) ∧
      ∀ s, AsSamples (some (.IntBuf ib)) = .ok (.ok (some s)) →
        ∀ ch ∈ s, ∀ x ∈ ch, ∃ q, x = .finite q ∧ (-1 : ℚ) ≤ q ∧ q ≤ 1 := by
  have hrange : ∀ v ∈ ib.Data, -32768 ≤ v ∧ v ≤ 32768 :=
    fun v hv => signedRange_le_16 _ v hbits (hdata v hv)
  rcases lt_trichotomy fmt.NumChannels 0 with hneg | hzero | hpos
  · refine ⟨fun h => absurd h (by omega), ?_⟩
    intro s hs
    rw [AsSamples_negative_channels ib fmt hfmt hneg] at hs
    cases hs
  · refine ⟨fun _ => ⟨_, AsSamples_no_channels ib fmt hfmt hzero⟩, ?_⟩
    intro s hs
    rw [AsSamples_no_channels ib fmt hfmt hzero] at hs
    cases hs
    intro ch hch
    cases hch
  · obtain ⟨C, hC⟩ := Int.eq_ofNat_of_zero_le (Int.le_of_lt hpos)
    have hC1 : 1 ≤ C := by omega
    have hcl := AsSamples_closed ib fmt C hfmt hC hC1
    refine ⟨fun _ => ⟨_, hcl⟩, ?_⟩
    intro s hs
    rw [hcl] at hs
    cases hs
    intro ch hch
    obtain ⟨i, _, rfl⟩ := List.mem_map.mp hch
    exact channelSamples_bounds _ _ _ _ _ hrange

theorem AsSamples_unit_range_witness :
    (0 ≤ (2 : Int) → ∃ s, AsSamples (some (.IntBuf ⟨some ⟨2, 44100⟩, [32767, -32768, 0, 5], 16⟩))
        = .ok (.ok (some s))) ∧
      ∀ s, AsSamples (some (.IntBuf ⟨some ⟨2, 44100⟩, [32767, -32768, 0, 5], 16⟩))
          = .ok (.ok (some s)) →
        ∀ ch ∈ s, ∀ x ∈ ch, ∃ q, x = .finite q ∧ (-1 : ℚ) ≤ q ∧ q ≤ 1 :=
  AsSamples_unit_range ⟨some ⟨2, 44100⟩, [32767, -32768, 0, 5], 16⟩ ⟨2, 44100⟩ rfl
    (by decide) (by decide)

/-! ## Claims about the single-use guard -/

/-- C3: the first setup call on a freshly created `Asset` (`Asset.Sink`) and on
a freshly created wav `Pump` (`Pump.Pump`) returns the work function and no
error; after any further calls on the instance that do not reset the guard
(setup calls, calls of the work function, `Flush`), a setup call returns the
single-use violation and no work function. -/
theorem setup_single_use (uid : UID) (name later : String)
    (calls : List AssetCall) (a : Asset)
    (decoder : Decoder) (bufferSize : Int) (p q : Pump) (pcalls : List PumpCall)
    (ha : Asset.calls ((Asset.New uid).Sink name).1 calls = .ok a)
    (hp : NewPump (.ok decoder) bufferSize = .ok (.ok p))
    (hq : Pump.calls (p.Pump name).1 pcalls = .ok q) :
    ((Asset.New uid).Sink name).2 = .ok Asset.sinkFunc ∧
      (a.Sink later).2 = .error .ErrSingleUseReused ∧
      (p.Pump name).2 = .ok Pump.pumpFunc ∧
      (q.Pump later).2 = .error .ErrSingleUseReused := by
  refine ⟨?_, ?_, ?_, ?_⟩
  · rw [Asset_Sink_unused _ name rfl]
  · rw [Asset_Sink_used a later
      (Asset_calls_done calls _ a (Asset_Sink_done _ name) ha)]
  · rw [Pump_Pump_unused p name (NewPump_once _ _ p hp)]
  · rw [Pump_Pump_used q later
      (Pump_calls_done pcalls _ q (Pump_Pump_done p name) hq)]

theorem setup_single_use_witness :
    ((Asset.New 1).Sink "").2 = .ok Asset.sinkFunc ∧
      ((⟨1, [[.finite (1 / 2)]], ⟨true⟩⟩ : Asset).Sink "").2 = .error .ErrSingleUseReused ∧
      ((⟨0, 2, 1, 44100, 16, 1, some ⟨1, 44100⟩, some ⟨false⟩,
          some ⟨1, 44100, 16, 1, true, [⟨[3, 4], 2, none⟩]⟩,
          some ⟨some ⟨1, 44100⟩, [0, 0], 16⟩, ⟨false⟩⟩ : Pump).Pump "").2
        = .ok Pump.pumpFunc ∧
      ((⟨0, 2, 1, 44100, 16, 1, some ⟨1, 44100⟩, some ⟨true⟩,
          some ⟨1, 44100, 16, 1, true, []⟩,
          some ⟨some ⟨1, 44100⟩, [3, 4], 16⟩, ⟨true⟩⟩ : Pump).Pump "").2
        = .error .ErrSingleUseReused :=
  setup_single_use 1 "" "" [.consume [[.finite (1 / 2)]], .setup ""] ⟨1, [[.finite (1 / 2)]], ⟨true⟩⟩
    ⟨1, 44100, 16, 1, true, [⟨[3, 4], 2, none⟩]⟩ 2
    ⟨0, 2, 1, 44100, 16, 1, some ⟨1, 44100⟩, some ⟨false⟩,
      some ⟨1, 44100, 16, 1, true, [⟨[3, 4], 2, none⟩]⟩,
      some ⟨some ⟨1, 44100⟩, [0, 0], 16⟩, ⟨false⟩⟩
    ⟨0, 2, 1, 44100, 16, 1, some ⟨1, 44100⟩, some ⟨true⟩,
      some ⟨1, 44100, 16, 1, true, []⟩,
      some ⟨some ⟨1, 44100⟩, [3, 4], 16⟩, ⟨true⟩⟩
    [.produce, .flush ""]
    (by rfl) (by rfl) (by rfl)

/-! ## Claim about the pump function of the wav pump -/

/-- C9: for a wav pump with a decoder and a buffer, let one call of
`PCMBuffer` read `n` samples into the buffer with error `err`.  The pump
function returns the error of the decoder, with no buffer, when there is one;
it returns `ErrEOP`, with no buffer, exactly when the decoder read zero
samples without error; and when the decoder read `n > 0` samples (at most the
length of the buffer, whose format is defined with a channel count that is not
negative) it returns without error the `AsSamples` conversion of the first
`n` values of the read buffer. -/
theorem pumpFunc_outcomes (p : Pump) (decoder decoder1 : Decoder) (ib ib1 : IntBuffer)
    (n : Int) (err : Option Error)
    (hdec : p.decoder = some decoder) (hib : p.ib = some ib)
    (hread : decoder.PCMBuffer (some ib) = (decoder1, some ib1, n, err)) :
    (∀ e, err = some e → ∃ p1, p.pumpFunc = .ok (p1, .error e)) ∧
      (err = none ∧ n = 0 → ∃ p1, p.pumpFunc = .ok (p1, .error .ErrEOP)) ∧
      (∀ p1, p.pumpFunc = .ok (p1, .error .ErrEOP) → err = none ∧ n = 0) ∧
      (∀ fmt, err = none → 0 < n → n ≤ (ib1.Data.length : Int) →
        ib1.Format = some fmt → 0 ≤ fmt.NumChannels →
        ∃ p1 s, p.pumpFunc = .ok (p1, .ok (some s)) ∧
          AsSamples (some (.IntBuf { ib1 with Data := ib1.Data.take n.toNat }))
            = .ok (.ok (some s))) := by
  rw [← hib] at hread
  refine ⟨?_, ?_, ?_, ?_⟩
  · intro e he
    subst he
    exact ⟨{ p with decoder := some decoder1, ib := some ib1 },
      by simp [Pump.pumpFunc, hdec, hread]⟩
  · rintro ⟨he, hn⟩
    subst he hn
    exact ⟨{ p with decoder := some decoder1, ib := some ib1 },
      by simp [Pump.pumpFunc, hdec, hread]⟩
  · intro p1 h
    cases herr : err with
    | some e =>
      obtain ⟨code, hcode⟩ := PCMBuffer_error _ _ _ _ _ e (herr ▸ hread)
      subst herr hcode
      simp [Pump.pumpFunc, hdec, hread] at h
    | none =>
      subst herr
      refine ⟨rfl, ?_⟩
      by_contra hn
      simp only [Pump.pumpFunc, hdec, hread, if_neg hn] at h
      split at h
      · cases h
      · split at h
        · cases h
        · next e heq =>
          have := AsSamples_error _ e heq
          subst this
          cases h
        · cases h
  · intro fmt he hpos hle hfmt h0
    subst he
    have hne : ¬ (n = 0) := by omega
    have hbounds : ¬ (n < 0 ∨ (ib1.Data.length : Int) < n) := by omega
    obtain ⟨s, hs⟩ := AsSamples_returns { ib1 with Data := ib1.Data.take n.toNat } fmt hfmt h0
    have hrun : ∃ p1, p.pumpFunc = .ok (p1, .ok (some s)) := by
      simp only [Pump.pumpFunc, hdec, hread, if_neg hne, if_neg hbounds, hs]
      exact ⟨_, rfl⟩
    obtain ⟨p1, hp1⟩ := hrun
    exact ⟨p1, s, hp1, hs⟩

theorem pumpFunc_outcomes_witness :
    (∀ e, (none : Option Error) = some e →
        ∃ p1, (⟨0, 2, 1, 44100, 16, 1, some ⟨1, 44100⟩, some ⟨false⟩,
          some ⟨1, 44100, 16, 1, true, [⟨[3, 4], 2, none⟩]⟩,
          some ⟨some ⟨1, 44100⟩, [0, 0], 16⟩, ⟨true⟩⟩ : Pump).pumpFunc = .ok (p1, .error e)) ∧
      ((none : Option Error) = none ∧ (2 : Int) = 0 →
        ∃ p1, (⟨0, 2, 1, 44100, 16, 1, some ⟨1, 44100⟩, some ⟨false⟩,
          some ⟨1, 44100, 16, 1, true, [⟨[3, 4], 2, none⟩]⟩,
          some ⟨some ⟨1, 44100⟩, [0, 0], 16⟩, ⟨true⟩⟩ : Pump).pumpFunc
            = .ok (p1, .error .ErrEOP)) ∧
      (∀ p1, (⟨0, 2, 1, 44100, 16, 1, some ⟨1, 44100⟩, some ⟨false⟩,
          some ⟨1, 44100, 16, 1, true, [⟨[3, 4], 2, none⟩]⟩,
          some ⟨some ⟨1, 44100⟩, [0, 0], 16⟩, ⟨true⟩⟩ : Pump).pumpFunc
            = .ok (p1, .error .ErrEOP) → (none : Option Error) = none ∧ (2 : Int) = 0) ∧
      (∀ fmt, (none : Option Error) = none → 0 < (2 : Int) →
        (2 : Int) ≤ ((⟨some ⟨1, 44100⟩, [3, 4], 16⟩ : IntBuffer).Data.length : Int) →
        (⟨some ⟨1, 44100⟩, [3, 4], 16⟩ : IntBuffer).Format = some fmt → 0 ≤ fmt.NumChannels →
        ∃ p1 s, (⟨0, 2, 1, 44100, 16, 1, some ⟨1, 44100⟩, some ⟨false⟩,
          some ⟨1, 44100, 16, 1, true, [⟨[3, 4], 2, none⟩]⟩,
          some ⟨some ⟨1, 44100⟩, [0, 0], 16⟩, ⟨true⟩⟩ : Pump).pumpFunc
            = .ok (p1, .ok (some s)) ∧
          AsSamples (some (.IntBuf { (⟨some ⟨1, 44100⟩, [3, 4], 16⟩ : IntBuffer) with
            Data := (⟨some ⟨1, 44100⟩, [3, 4], 16⟩ : IntBuffer).Data.take (2 : Int).toNat }))
            = .ok (.ok (some s))) :=
  pumpFunc_outcomes
    ⟨0, 2, 1, 44100, 16, 1, some ⟨1, 44100⟩, some ⟨false⟩,
      some ⟨1, 44100, 16, 1, true, [⟨[3, 4], 2, none⟩]⟩,
      some ⟨some ⟨1, 44100⟩, [0, 0], 16⟩, ⟨true⟩⟩
    ⟨1, 44100, 16, 1, true, [⟨[3, 4], 2, none⟩]⟩ ⟨1, 44100, 16, 1, true, []⟩
    ⟨some ⟨1, 44100⟩, [0, 0], 16⟩ ⟨some ⟨1, 44100⟩, [3, 4], 16⟩ 2 none rfl rfl rfl

/-! ## Claim about the sink function of the asset -/

/-- C8: for buffers `b1..bn` (`n ≥ 1`) with the same channel count `C ≥ 1`
passed in order to the sink function that `Asset.Sink` returns on a fresh
asset, every call returns no error, and afterwards the buffer of the asset has
`C` channels, its size is the sum of the sizes of `b1..bn`, and each channel is
the concatenation in order of that channel of `b1..bn`.  Consuming an empty
buffer (one without channels) leaves every asset unchanged, and so does
consuming `C` channels without samples for an asset that holds `C` channels. -/
theorem Asset_sink_concatenates (uid : UID) (name : String) (bs : List Buffer) (C : Nat)
    (hC : 1 ≤ C) (hne : bs ≠ []) (hbs : ∀ b ∈ bs, Buffer.NumChannels b = C) :
    ∃ a0 f a1 errs, (Asset.New uid).Sink name = (a0, .ok f) ∧
      Asset.feed f a0 bs = .ok (a1, errs) ∧
      errs.length = bs.length ∧ (∀ e ∈ errs, e = none) ∧
      Buffer.NumChannels a1.Buffer = C ∧
      Buffer.Size a1.Buffer = (bs.map Buffer.Size).sum ∧
      (∀ j, j < C → a1.Buffer[j]? = some (channelConcat bs j)) ∧
      (∀ a : Asset, f a [] = .ok (a, none)) ∧
      (∀ a : Asset, Buffer.NumChannels a.Buffer = C →
        f a (List.replicate C []) = .ok (a, none)) := by
  obtain ⟨b1, rest, rfl⟩ := List.exists_cons_of_ne_nil hne
  have hb1 : b1.length = C := hbs b1 (by simp)
  have hrest : ∀ b ∈ rest, b.length = C := fun b hb => hbs b (by simp [hb])
  have hfirst := Append_to_empty b1 (by omega)
  have hfeed := Asset_feed_channels C hC rest
    { UID := uid, Buffer := b1, once := { done := true } } hb1 hrest
  have hmap : (List.range C).map (fun j => b1.getD j [] ++ channelConcat rest j)
      = (List.range C).map (channelConcat (b1 :: rest)) := by
    apply List.map_congr_left
    intro j _
    simp [channelConcat]
  rw [hmap] at hfeed
  refine ⟨⟨uid, [], ⟨true⟩⟩, Asset.sinkFunc,
    ⟨uid, (List.range C).map (channelConcat (b1 :: rest)), ⟨true⟩⟩,
    none :: List.replicate rest.length none,
    Asset_Sink_unused (Asset.New uid) name rfl, ?_, by simp, ?_, by simp [Buffer.NumChannels],
    ?_, ?_, ?_, ?_⟩
  · simp only [Asset.feed, Asset.sinkFunc, hfirst, hfeed]
  · intro e he
    rcases List.mem_cons.mp he with h | h
    · exact h
    · exact (List.mem_replicate.mp h).2
  · rw [Size_eq_getD]
    obtain ⟨c, rfl⟩ : ∃ c, C = c + 1 := ⟨C - 1, by omega⟩
    have hsum : ∀ l : List Buffer, (channelConcat l 0).length = (l.map Buffer.Size).sum := by
      intro l
      induction l with
      | nil => simp [channelConcat]
      | cons b l ih =>
        have hcons : channelConcat (b :: l) 0 = b.getD 0 [] ++ channelConcat l 0 := by
          simp [channelConcat]
        rw [hcons, List.length_append, ih, List.map_cons, List.sum_cons, Size_eq_getD]
    simp only [List.range_succ_eq_map, List.map_cons, List.getD_cons_zero]
    exact hsum (b1 :: rest)
  · intro j hj
    simp [List.getElem?_map, List.getElem?_range hj]
  · intro a
    simp [Asset.sinkFunc, Append_no_channels]
  · intro a ha
    have happ := Append_same_channels a.Buffer (List.replicate C []) C hC ha (by simp)
    have hzip : List.zipWith (fun x y => x ++ y) a.Buffer (List.replicate C ([] : List Float64))
        = a.Buffer := by
      apply List.ext_getElem?
      intro q
      rw [List.getElem?_zipWith]
      by_cases hq : q < C
      · simp [List.getElem?_replicate, hq,
          List.getElem?_eq_getElem (show q < a.Buffer.length by
            unfold Buffer.NumChannels at ha; omega)]
      · have : a.Buffer[q]? = none := List.getElem?_eq_none (by
          unfold Buffer.NumChannels at ha; omega)
        simp [this]
    simp only [Asset.sinkFunc, happ, hzip]

theorem Asset_sink_concatenates_witness :
    ∃ a0 f a1 errs, (Asset.New 1).Sink "" = (a0, .ok f) ∧
      Asset.feed f a0 [[[.finite (1 / 2), .finite 1], [.finite 0, .finite 0]], [[], []],
        [[.finite (1 / 4)], [.finite 1]]] = .ok (a1, errs) ∧
      errs.length = ([[[.finite (1 / 2), .finite 1], [.finite 0, .finite 0]], [[], []],
        [[.finite (1 / 4)], [.finite 1]]] : List Buffer).length ∧
      (∀ e ∈ errs, e = none) ∧
      Buffer.NumChannels a1.Buffer = 2 ∧
      Buffer.Size a1.Buffer
        = (([[[.finite (1 / 2), .finite 1], [.finite 0, .finite 0]], [[], []],
        [[.finite (1 / 4)], [.finite 1]]] : List Buffer).map Buffer.Size).sum ∧
      (∀ j, j < 2 → a1.Buffer[j]?
        = some (channelConcat [[[.finite (1 / 2), .finite 1], [.finite 0, .finite 0]], [[], []],
        [[.finite (1 / 4)], [.finite 1]]] j)) ∧
      (∀ a : Asset, f a [] = .ok (a, none)) ∧
      (∀ a : Asset, Buffer.NumChannels a.Buffer = 2 →
        f a (List.replicate 2 []) = .ok (a, none)) :=
  Asset_sink_concatenates 1 "" [[[.finite (1 / 2), .finite 1], [.finite 0, .finite 0]], [[], []],
        [[.finite (1 / 4)], [.finite 1]]] 2
    (by decide) (by simp) (by simp [Buffer.NumChannels])

end Phono
